import Mathlib

/-!
# Verification of the TransparentClassroomArchiver core

This file gives a shallow embedding, in Lean 4, of the two core components of
the archiver (`tc.py`):

* the consistent paginated lister (`get_child_posts_once` / `get_child_posts`),
  which enumerates a paginated collection twice and certifies that the two
  enumerations agree; and
* the bounded-concurrency downloader (`download_urls` with its inner
  `download_one` coroutine), which fetches URLs to destination paths through a
  temporary `.unfinished` file, guarded by an `asyncio.Semaphore`.

The Python `while True` loop of the lister is modelled with explicit fuel
(`none` = the loop did not terminate within the fuel).  The server is modelled
as a function from page number to a page response; the two enumeration passes
take two independent server functions, since the remote state may change
between the passes.  Exceptions raised by the Python code (`raise_for_status`,
failed `assert`s) are modelled by the error taxonomy of the specification:
`fetchFailed`, `protocolViolation`, `listingInconsistent`.

The downloader is modelled as a small-step interleaving semantics whose
suspension points are exactly the `await` points of the Python code: semaphore
acquisition, `session.get`, and `response.read()`.  The filesystem is modelled
with POSIX-style inodes, because `download_one` holds an open file descriptor
for the temporary file across an `await` (the file is opened before
`response.read()` is awaited and written after), and renames performed by other
tasks act on names, not on descriptors.
-/

namespace TC

/-! ## The paginated lister (`get_child_posts_once`, `get_child_posts`) -/

/-- Constant `POSTS_PER_PAGE` from `tc.py`: the fixed page capacity `P`. -/
def POSTS_PER_PAGE : Nat := 30

/-- The outcome of one page request `s.get(...posts.json?page=N)`:
either a parsed JSON list of posts, or a failure (`raise_for_status`
raised, transport error, or malformed body). -/
inductive PageResponse (α : Type) where
  | ok (items : List α)
  | fetchError
deriving DecidableEq

/-- The error taxonomy of the specification for `List`. -/
inductive ListError where
  | fetchFailed
  | protocolViolation
  | listingInconsistent
deriving DecidableEq

/-- The list `[s, s+1, ..., s+n-1]` of page numbers requested by one enumeration. -/
def pageRange : Nat → Nat → List Nat
  | _, 0 => []
  | s, n + 1 => s :: pageRange (s + 1) n

/-- The `while True` loop body of `get_child_posts_once` in `tc.py`:
request page `page`, fail on a request error (`raise_for_status`), fail with
`protocolViolation` when the page is larger than `POSTS_PER_PAGE` (the
`assert len(j) <= POSTS_PER_PAGE`), extend the accumulator, stop on a short
page, otherwise continue with `page + 1`.  `fuel` bounds the number of
iterations; `none` means the loop did not finish within `fuel` requests.
The second component of a successful result is the ordered list of page
numbers that were requested. -/
def getChildPostsOnceAux {α : Type} (server : Nat → PageResponse α) :
    Nat → Nat → List α → List Nat → Option (Except ListError (List α × List Nat))
  | 0, _, _, _ => none
  | fuel + 1, page, posts, reqs =>
    match server page with
    | PageResponse.fetchError => some (Except.error ListError.fetchFailed)
    | PageResponse.ok j =>
      if POSTS_PER_PAGE < j.length then some (Except.error ListError.protocolViolation)
      else if j.length < POSTS_PER_PAGE then
        some (Except.ok (posts ++ j, reqs ++ [page]))
      else getChildPostsOnceAux server fuel (page + 1) (posts ++ j) (reqs ++ [page])

/-- Model of `get_child_posts_once`: one full enumeration, starting at page 1 with an
empty accumulator. -/
def getChildPostsOnce {α : Type} (server : Nat → PageResponse α) (fuel : Nat) :
    Option (Except ListError (List α × List Nat)) :=
  getChildPostsOnceAux server fuel 1 [] []

/-- Model of `get_child_posts`: run the full enumeration twice (each pass issues its own
page requests against the then-current server state, hence two server
arguments), and compare the two ordered item sequences; the
`assert list1 == list2` is modelled as `listingInconsistent`.  Errors of a pass
propagate immediately. -/
def getChildPosts {α : Type} [DecidableEq α]
    (server1 server2 : Nat → PageResponse α) (fuel : Nat) :
    Option (Except ListError (List α)) :=
  match getChildPostsOnce server1 fuel with
  | none => none
  | some (Except.error e) => some (Except.error e)
  | some (Except.ok (list1, _)) =>
    match getChildPostsOnce server2 fuel with
    | none => none
    | some (Except.error e) => some (Except.error e)
    | some (Except.ok (list2, _)) =>
      if list1 = list2 then some (Except.ok list1)
      else some (Except.error ListError.listingInconsistent)

/-- The 31-item collection of the claim: page 1 has 30 items, page 2 has 1. -/
def c3server : Nat → PageResponse Nat :=
  fun p => if p = 1 then PageResponse.ok (List.range 30)
           else if p = 2 then PageResponse.ok [100] else PageResponse.ok []

/-- The pure page contents behind `c3server`. -/
def c3pg : Nat → List Nat :=
  fun p => if p = 1 then List.range 30 else if p = 2 then [100] else []

/-- A one-page server returning `[1]`. -/
def c1server1 : Nat → PageResponse Nat := fun _ => PageResponse.ok [1]

/-- A one-page server returning `[2]`: the same listing observed differently. -/
def c1server2 : Nat → PageResponse Nat := fun _ => PageResponse.ok [2]

/-- A server whose first page has 31 items: one more than the capacity. -/
def c7server : Nat → PageResponse Nat := fun _ => PageResponse.ok (List.range 31)

/-! ## Path names: `pathlib.PurePath.suffix` and `with_suffix`

A destination path name is modelled as its list of characters (all downloads
of one batch live in the single directory `target_path`, and the filenames
produced by `DownloadItem` contain no separator).  `suffixOf` implements
`PurePath.suffix`: the part of the name from its last dot, provided that dot
is neither the first nor the last character; otherwise the suffix is empty.
`withSuffix` implements `PurePath.with_suffix`: replace the suffix when there
is one, append otherwise. -/

/-- A file name, as a list of characters. -/
abbrev PathName := List Char

/-- Scan for the first `'.'`; return the scanned prefix up to and including
that dot, or `none` when there is no dot or the dot is the last character.
Applied to the reversed name, this finds the last dot of the name and rejects
a dot in first position. -/
def takeToDot : List Char → Option (List Char)
  | [] => none
  | c :: rest =>
    if c = '.' then if rest = [] then none else some [c]
    else (takeToDot rest).map (fun r => c :: r)

/-- Model of `PurePath.suffix` of a name: `name[i:]` where `i` is the index of the last
dot, provided `0 < i < len - 1`; `[]` otherwise. -/
def suffixOf (name : PathName) : PathName :=
  match name.reverse with
  | [] => []
  | c :: rest =>
    if c = '.' then []
    else
      match takeToDot (c :: rest) with
      | none => []
      | some r => r.reverse

/-- Model of `PurePath.with_suffix`: drop the old suffix (when present) and append the
new one. -/
def withSuffix (name : PathName) (suffix : PathName) : PathName :=
  let old := suffixOf name
  if old = [] then name ++ suffix
  else name.take (name.length - old.length) ++ suffix

/-- The marker suffix used by `download_one` for in-progress files. -/
def unfinishedSuffix : PathName := ".unfinished".data

/-- The temporary path of `download_one`: `final_path.with_suffix('.unfinished')`. -/
def tempPath (finalPath : PathName) : PathName := withSuffix finalPath unfinishedSuffix

/-! ## The filesystem

`download_one` opens the temporary file (`'wb'`, truncating) *before* awaiting
`response.read()` and writes through the open descriptor afterwards, while
renames performed concurrently by other tasks act on names.  A POSIX-style
model with inodes captures this: `names` maps a path name to an inode,
`inodes` maps an inode to its content, and a descriptor is the inode it was
opened on.  A write through a descriptor overlays the bytes from offset 0 on
the inode's current content. -/

/-- File contents: a list of bytes. -/
abbrev Content := List Nat

/-- Update one point of a path-to-inode map. -/
def updName (f : PathName → Option Nat) (p : PathName) (v : Option Nat) :
    PathName → Option Nat :=
  fun q => if q = p then v else f q

/-- Update one point of an inode-to-content map. -/
def updInode (f : Nat → Option Content) (i : Nat) (v : Option Content) :
    Nat → Option Content :=
  fun j => if j = i then v else f j

/-- The filesystem: names, inode contents, and a fresh-inode counter. -/
structure FS where
  names : PathName → Option Nat
  inodes : Nat → Option Content
  nextInode : Nat

/-- Model of `path.exists()`. -/
def FS.existsAt (fs : FS) (p : PathName) : Bool := (fs.names p).isSome

/-- Model of `path.open('wb')`: truncate the existing inode, or create a fresh one.
Returns the new filesystem and the descriptor (the inode opened). -/
def FS.openTrunc (fs : FS) (p : PathName) : FS × Nat :=
  match fs.names p with
  | some i => ({ fs with inodes := updInode fs.inodes i (some []) }, i)
  | none =>
    ({ names := updName fs.names p (some fs.nextInode),
       inodes := updInode fs.inodes fs.nextInode (some []),
       nextInode := fs.nextInode + 1 }, fs.nextInode)

/-- Model of `f.write(body)` through an open descriptor: overlay `body` from offset 0 on
the inode's content (the descriptor's offset is 0 right after opening). -/
def FS.writeFd (fs : FS) (fd : Nat) (body : Content) : FS :=
  match fs.inodes fd with
  | some old => { fs with inodes := updInode fs.inodes fd (some (body ++ old.drop body.length)) }
  | none => fs

/-- Model of `src.rename(dst)`: atomic; `none` models the `FileNotFoundError` raised
when `src` no longer exists. -/
def FS.rename (fs : FS) (src dst : PathName) : Option FS :=
  match fs.names src with
  | none => none
  | some i =>
    some { fs with names := updName (updName fs.names src none) dst (some i) }

/-! ## The bounded-concurrency downloader (`download_urls` / `download_one`)

Each `DownloadItem` becomes one asyncio task running `download_one`.  The
suspension points of `download_one` are exactly: acquiring the semaphore,
awaiting `session.get`, and awaiting `response.read()`; the code between two
suspension points runs atomically.  A task is therefore a four-phase state
machine, and a batch execution interleaves task steps under an arbitrary
schedule (a list of task indices; a step of a task that is blocked on the
semaphore, out of range, or already finished changes nothing).

The network is an oracle `net` from task index to the behavior of that task's
single fetch: `transportError` (the `session.get` raises), or a response with
a status flag, a content type, and `some body` (a complete read) or `none`
(`response.read()` raises mid-transfer).  `mimeExts` models
`mimetypes.guess_all_extensions`. -/

/-- Structure `DownloadItem`: a destination file name and a URL. -/
structure DownloadItem where
  filename : PathName
  url : Nat
deriving DecidableEq

/-- The behavior of one task's fetch. -/
inductive GetResult where
  | transportError
  | response (statusOk : Bool) (contentType : Nat) (body : Option Content)
deriving DecidableEq

/-- Terminal outcome of one task, in the specification's taxonomy.  The
`failed*` outcomes are exceptions raised inside `download_one`:
`failedAssert` is the `assert final_path.suffix != '.unfinished'`,
`failedStatus` is `raise_for_status`, `failedMismatch` is the content-type
`assert`, `failedRead` is an error while awaiting `response.read()`, and
`failedRename` is the `FileNotFoundError` of `temp_path.rename`. -/
inductive Outcome where
  | skipped
  | completed
  | failedAssert
  | failedTransport
  | failedStatus
  | failedMismatch
  | failedRead
  | failedRename
deriving DecidableEq

/-- Does this outcome correspond to an exception propagating out of the
task's coroutine (as opposed to a normal return)? -/
def Outcome.isException : Outcome → Bool
  | .skipped => false
  | .completed => false
  | _ => true

/-- Phase of one task between suspension points. -/
inductive Phase where
  | start
  | acquired
  | reading (fd : Nat)
  | done (o : Outcome)
deriving DecidableEq

/-- Is the task finished? -/
def Phase.isDone : Phase → Bool
  | .done _ => true
  | _ => false

/-- Does the task currently hold a semaphore slot (in-flight fetch)? -/
def Phase.holdsSem : Phase → Bool
  | .acquired => true
  | .reading _ => true
  | _ => false

/-- One task of a batch. -/
structure TaskState where
  item : DownloadItem
  phase : Phase
deriving DecidableEq

/-- State of one `download_urls` invocation: the filesystem, the free count of
the `asyncio.Semaphore`, the tasks, and the ordered log of task indices whose
`session.get` was issued. -/
structure BatchState where
  fs : FS
  sem : Nat
  tasks : List TaskState
  fetchLog : List Nat

/-- Constant `MAX_CONCURRENT_DOWNLOADS` from `tc.py`. -/
def MAX_CONCURRENT_DOWNLOADS : Nat := 10

/-- One scheduler step of task `i`, following `download_one`:

* `start`: run the `assert final_path.suffix != '.unfinished'` (failing it
  finishes the task with an `AssertionError`), then acquire the semaphore if
  a slot is free, else stay blocked;
* `acquired`: await `session.get` (logged in `fetchLog`): a transport error,
  a bad status (`raise_for_status`), or a content type incompatible with the
  destination's extension finishes the task, releasing the semaphore;
  otherwise open the temporary file (truncating) and await the body;
* `reading fd`: a mid-transfer error finishes the task (the open temporary
  file is left behind); a complete body is written through `fd` and the
  temporary path is renamed onto the destination. -/
def stepTask (mimeExts : Nat → List PathName) (net : Nat → GetResult)
    (st : BatchState) (i : Nat) : BatchState :=
  match st.tasks[i]? with
  | none => st
  | some t =>
    let dest := t.item.filename
    match t.phase with
    | .start =>
      if suffixOf dest = unfinishedSuffix then
        { st with tasks := st.tasks.set i { t with phase := .done .failedAssert } }
      else if st.sem = 0 then st
      else { st with sem := st.sem - 1,
                     tasks := st.tasks.set i { t with phase := .acquired } }
    | .acquired =>
      match net i with
      | .transportError =>
        { st with sem := st.sem + 1,
                  tasks := st.tasks.set i { t with phase := .done .failedTransport },
                  fetchLog := st.fetchLog ++ [i] }
      | .response statusOk contentType _ =>
        if statusOk = false then
          { st with sem := st.sem + 1,
                    tasks := st.tasks.set i { t with phase := .done .failedStatus },
                    fetchLog := st.fetchLog ++ [i] }
        else if suffixOf dest ∉ mimeExts contentType then
          { st with sem := st.sem + 1,
                    tasks := st.tasks.set i { t with phase := .done .failedMismatch },
                    fetchLog := st.fetchLog ++ [i] }
        else
          let opened := st.fs.openTrunc (tempPath dest)
          { st with fs := opened.1,
                    tasks := st.tasks.set i { t with phase := .reading opened.2 },
                    fetchLog := st.fetchLog ++ [i] }
    | .reading fd =>
      match net i with
      | .response _ _ (some body) =>
        let fs1 := st.fs.writeFd fd body
        match fs1.rename (tempPath dest) dest with
        | some fs2 =>
          { st with fs := fs2, sem := st.sem + 1,
                    tasks := st.tasks.set i { t with phase := .done .completed } }
        | none =>
          { st with fs := fs1, sem := st.sem + 1,
                    tasks := st.tasks.set i { t with phase := .done .failedRename } }
      | _ =>
        { st with sem := st.sem + 1,
                  tasks := st.tasks.set i { t with phase := .done .failedRead } }
    | .done _ => st

/-- The pre-filter of `download_urls`: the whole `for i in items` loop runs
before any task coroutine starts (the loop contains no `await`), so every
`final_path.exists()` check sees the initial filesystem.  An existing
destination is `Skipped`; every other item gets a fresh task. -/
def initTask (fs0 : FS) (it : DownloadItem) : TaskState :=
  if fs0.existsAt it.filename then { item := it, phase := .done .skipped }
  else { item := it, phase := .start }

/-- The batch state right before `await asyncio.gather(*tasks)`. -/
def initBatch (fs0 : FS) (items : List DownloadItem) : BatchState :=
  { fs := fs0, sem := MAX_CONCURRENT_DOWNLOADS,
    tasks := items.map (initTask fs0), fetchLog := [] }

/-- Run a schedule (a list of task indices) from a batch state. -/
def runSched (mimeExts : Nat → List PathName) (net : Nat → GetResult)
    (st : BatchState) : List Nat → BatchState
  | [] => st
  | i :: rest => runSched mimeExts net (stepTask mimeExts net st i) rest

/-- Model of `download_urls`: pre-filter against the initial filesystem, then run the
tasks under the given schedule. -/
def downloadUrls (mimeExts : Nat → List PathName) (net : Nat → GetResult)
    (fs0 : FS) (items : List DownloadItem) (sched : List Nat) : BatchState :=
  runSched mimeExts net (initBatch fs0 items) sched

/-- Does `await asyncio.gather(*tasks)` raise?  `gather` is called with the
default `return_exceptions=False`, so it raises as soon as any task raised;
`download_urls` then propagates that exception instead of returning. -/
def batchRaises (st : BatchState) : Bool :=
  st.tasks.any fun t =>
    match t.phase with
    | .done o => o.isException
    | _ => false

/-- Every possible result of one scheduler step: either the state is
unchanged, or task `i` makes one of the seven transitions of `download_one`.
Each disjunct records the phase it fires from, the side conditions, and the
whole resulting state. -/
def StepSpec (mE : Nat → List PathName) (net : Nat → GetResult)
    (st : BatchState) (i : Nat) : Prop :=
  stepTask mE net st i = st ∨
  ∃ t, st.tasks[i]? = some t ∧
    ((t.phase = .start ∧ suffixOf t.item.filename = unfinishedSuffix ∧
        stepTask mE net st i =
          { st with tasks := st.tasks.set i { t with phase := .done .failedAssert } }) ∨
     (t.phase = .start ∧ ¬ st.sem = 0 ∧
        stepTask mE net st i =
          { st with sem := st.sem - 1,
                    tasks := st.tasks.set i { t with phase := .acquired } }) ∨
     (t.phase = .acquired ∧
        ∃ o, (o = Outcome.failedTransport ∨ o = Outcome.failedStatus ∨
              o = Outcome.failedMismatch) ∧
          stepTask mE net st i =
            { st with sem := st.sem + 1,
                      tasks := st.tasks.set i { t with phase := .done o },
                      fetchLog := st.fetchLog ++ [i] }) ∨
     (t.phase = .acquired ∧
        (∃ ct b, net i = .response true ct b ∧ suffixOf t.item.filename ∈ mE ct) ∧
        stepTask mE net st i =
          { st with fs := (st.fs.openTrunc (tempPath t.item.filename)).1,
                    tasks := st.tasks.set i
                      { t with phase := .reading (st.fs.openTrunc (tempPath t.item.filename)).2 },
                    fetchLog := st.fetchLog ++ [i] }) ∨
     (∃ fd, t.phase = .reading fd ∧
        stepTask mE net st i =
          { st with sem := st.sem + 1,
                    tasks := st.tasks.set i { t with phase := .done .failedRead } }) ∨
     (∃ fd body s ct fs2, t.phase = .reading fd ∧ net i = .response s ct (some body) ∧
        (st.fs.writeFd fd body).rename (tempPath t.item.filename) t.item.filename =
          some fs2 ∧
        stepTask mE net st i =
          { st with fs := fs2, sem := st.sem + 1,
                    tasks := st.tasks.set i { t with phase := .done .completed } }) ∨
     (∃ fd body s ct, t.phase = .reading fd ∧ net i = .response s ct (some body) ∧
        (st.fs.writeFd fd body).rename (tempPath t.item.filename) t.item.filename =
          none ∧
        stepTask mE net st i =
          { st with fs := st.fs.writeFd fd body, sem := st.sem + 1,
                    tasks := st.tasks.set i { t with phase := .done .failedRename } }))

/-! ### Claim C9: the concurrency bound -/

/-- Number of in-flight fetches: tasks holding a semaphore slot (between the
`session.get` admission and the end of `response.read()`/the rename). -/
def holders (st : BatchState) : Nat := st.tasks.countP fun t => t.phase.holdsSem

/-- The semaphore accounting invariant: free slots plus in-flight fetches
equal the capacity. -/
def semInv (st : BatchState) : Prop :=
  st.sem + holders st = MAX_CONCURRENT_DOWNLOADS

/-! ### Claim C4: the pre-filter, and the absence of per-destination dedup -/

/-- Phases a task can only be in after its `session.get` has been issued. -/
def Phase.postFetch : Phase → Bool
  | .reading _ => true
  | .done .completed => true
  | .done .failedTransport => true
  | .done .failedStatus => true
  | .done .failedMismatch => true
  | .done .failedRead => true
  | .done .failedRename => true
  | _ => false

/-- Each task index appears in the fetch log exactly once if its `session.get`
has been issued, and never otherwise. -/
def logInv (st : BatchState) : Prop :=
  ∀ j, st.fetchLog.count j =
    (match st.tasks[j]? with
     | some t => if t.phase.postFetch then 1 else 0
     | none => 0)

/-- Which tasks can come to hold a post-fetch phase: only those whose
destination was absent from the initial filesystem. -/
def originInv (fs0 : FS) (items : List DownloadItem) (st : BatchState) : Prop :=
  ∀ (j : Nat) (t : TaskState), st.tasks[j]? = some t →
    items[j]? = some t.item ∧
    (t.phase = .done .skipped ∨ fs0.existsAt t.item.filename = false)

/-! ### Claim C5: gather propagates task failures -/

/-- Does this fetch behavior make `download_one` fail before its rename:
a transport error, a non-success status, or a mid-transfer read failure? -/
def NetFails : GetResult → Bool
  | .transportError => true
  | .response sOk _ body => !sOk || body.isNone

/-- The phases reachable by task `i` when its single fetch fails: it can only
sit before or inside its fetch, and when it finishes, it finishes with an
exception; in particular it never completes and never renames.  The reading
phase is reachable only for a mid-transfer failure (status ok, body `none`). -/
def failPhases (net : Nat → GetResult) (i : Nat) (st : BatchState) : Prop :=
  ∀ t : TaskState, st.tasks[i]? = some t →
    (t.phase = .start ∨ t.phase = .acquired ∨
     ((∃ fd, t.phase = .reading fd) ∧ ∃ ct, net i = .response true ct none) ∨
     (∃ o, t.phase = .done o ∧ o.isException = true))

/-- Every task of the batch keeps the item it was created from. -/
def itemsInv (items : List DownloadItem) (st : BatchState) : Prop :=
  ∀ (j : Nat) (t : TaskState), st.tasks[j]? = some t → items[j]? = some t.item

/-- A `Skipped` or `completed` task's destination exists on the filesystem.
Preserved because the only names a step ever removes are temporary paths,
whose suffix is `.unfinished`, while a destination that got skipped or
completed has a different suffix (by the well-formedness hypothesis on the
item list). -/
def doneNamesInv (items : List DownloadItem) (st : BatchState) : Prop :=
  ∀ (j : Nat) (t : TaskState), st.tasks[j]? = some t →
    (t.phase = .done .skipped ∨ t.phase = .done .completed) →
    st.fs.names t.item.filename ≠ none

/-! ### Concrete batches used by the counterexamples and witnesses -/

/-- The empty filesystem. -/
def fsEmpty : FS := { names := fun _ => none, inodes := fun _ => none, nextInode := 0 }

/-- Model of `mimetypes.guess_all_extensions` restricted to the two content types the
examples use: content type `0` is `image/jpeg` (extension `.jpg`), anything
else is `image/png` (extension `.png`). -/
def mEx : Nat → List PathName := fun ct => if ct = 0 then [".jpg".data] else [".png".data]

/-- A single download of `a.jpg`. -/
def itemsA : List DownloadItem := [{ filename := "a.jpg".data, url := 0 }]

/-- A network where every `session.get` raises a transport error. -/
def netTransportFail : Nat → GetResult := fun _ => GetResult.transportError

/-- A network where every fetch gets a good jpeg response whose
`response.read()` then fails mid-transfer. -/
def netMidTransferFail : Nat → GetResult := fun _ => GetResult.response true 0 none

/-- A network where every fetch succeeds completely with jpeg content. -/
def netOkA : Nat → GetResult := fun _ => GetResult.response true 0 (some [5])

/-- Two tasks with the *same* destination `x.jpg`. -/
def itemsDup : List DownloadItem :=
  [{ filename := "x.jpg".data, url := 0 }, { filename := "x.jpg".data, url := 1 }]

/-- Two destinations `x.jpg` and `x.png` differing only in their extension:
both tasks get the temporary path `x.unfinished`. -/
def itemsCollide : List DownloadItem :=
  [{ filename := "x.jpg".data, url := 0 }, { filename := "x.png".data, url := 1 }]

/-- Task 0 fetches the jpeg bytes `[1, 2, 3]`; task 1 fetches the png byte
`[9]`.  Both fetches succeed completely and validate. -/
def netCollide : Nat → GetResult := fun i =>
  if i = 0 then GetResult.response true 0 (some [1, 2, 3])
  else GetResult.response true 1 (some [9])

/-! ## Theorems -/

/-! ### Lemmas about one enumeration pass -/

theorem mem_pageRange_cons {s n p : Nat} :
    p ∈ pageRange s (n + 1) ↔ p = s ∨ p ∈ pageRange (s + 1) n := by
  simp [pageRange]

/-- Running the enumeration over `k` full pages followed by a short page at
`page + k` consumes exactly those `k + 1` pages, in order. -/
theorem onceAux_full_then_short {α : Type} (server : Nat → PageResponse α)
    (pg : Nat → List α) (k : Nat) :
    ∀ (page fuel : Nat) (acc : List α) (reqs : List Nat), k + 1 ≤ fuel →
    (∀ p ∈ pageRange page k, server p = PageResponse.ok (pg p) ∧
        ¬ (pg p).length < POSTS_PER_PAGE ∧ (pg p).length ≤ POSTS_PER_PAGE) →
    server (page + k) = PageResponse.ok (pg (page + k)) →
    (pg (page + k)).length < POSTS_PER_PAGE →
    getChildPostsOnceAux server fuel page acc reqs =
      some (Except.ok (acc ++ ((pageRange page (k + 1)).map pg).flatten,
                       reqs ++ pageRange page (k + 1))) := by
  induction k with
  | zero =>
    intro page fuel acc reqs hfuel hfull hlast hshort
    obtain ⟨f, rfl⟩ : ∃ f, fuel = f + 1 := ⟨fuel - 1, by omega⟩
    simp only [Nat.add_zero] at hlast hshort
    simp only [getChildPostsOnceAux, hlast]
    rw [if_neg (by omega), if_pos hshort]
    simp [pageRange]
  | succ n ih =>
    intro page fuel acc reqs hfuel hfull hlast hshort
    obtain ⟨f, rfl⟩ : ∃ f, fuel = f + 1 := ⟨fuel - 1, by omega⟩
    have hp := hfull page (by simp [pageRange])
    simp only [getChildPostsOnceAux, hp.1]
    rw [if_neg (by omega), if_neg hp.2.1]
    have hrec := ih (page + 1) f (acc ++ pg page) (reqs ++ [page]) (by omega)
      (fun p hmem => hfull p (mem_pageRange_cons.mpr (Or.inr hmem)))
      (by rw [show page + 1 + n = page + (n + 1) by omega]; exact hlast)
      (by rw [show page + 1 + n = page + (n + 1) by omega]; exact hshort)
    rw [hrec]
    simp [pageRange, List.append_assoc]

/-- Running the enumeration over `k` full pages followed by an oversized page
at `page + k` fails with `protocolViolation`. -/
theorem onceAux_full_then_oversized {α : Type} (server : Nat → PageResponse α)
    (pg : Nat → List α) (k : Nat) :
    ∀ (page fuel : Nat) (acc : List α) (reqs : List Nat), k + 1 ≤ fuel →
    (∀ p ∈ pageRange page k, server p = PageResponse.ok (pg p) ∧
        ¬ (pg p).length < POSTS_PER_PAGE ∧ (pg p).length ≤ POSTS_PER_PAGE) →
    server (page + k) = PageResponse.ok (pg (page + k)) →
    POSTS_PER_PAGE < (pg (page + k)).length →
    getChildPostsOnceAux server fuel page acc reqs =
      some (Except.error ListError.protocolViolation) := by
  induction k with
  | zero =>
    intro page fuel acc reqs hfuel hfull hlast hover
    obtain ⟨f, rfl⟩ : ∃ f, fuel = f + 1 := ⟨fuel - 1, by omega⟩
    simp only [Nat.add_zero] at hlast hover
    simp only [getChildPostsOnceAux, hlast]
    rw [if_pos hover]
  | succ n ih =>
    intro page fuel acc reqs hfuel hfull hlast hover
    obtain ⟨f, rfl⟩ : ∃ f, fuel = f + 1 := ⟨fuel - 1, by omega⟩
    have hp := hfull page (by simp [pageRange])
    simp only [getChildPostsOnceAux, hp.1]
    rw [if_neg (by omega), if_neg hp.2.1]
    exact ih (page + 1) f (acc ++ pg page) (reqs ++ [page]) (by omega)
      (fun p hmem => hfull p (mem_pageRange_cons.mpr (Or.inr hmem)))
      (by rw [show page + 1 + n = page + (n + 1) by omega]; exact hlast)
      (by rw [show page + 1 + n = page + (n + 1) by omega]; exact hover)

/-! ### Claim C3: pagination termination -/

/-- C3: for a sequence of pages each of size at most `POSTS_PER_PAGE` whose
first short page is page `k + 1` (pages `1..k` are not short), one enumeration
pass requests exactly pages `1, 2, ..., k + 1` in order, returns the
concatenation of their items, and issues no further request: the request trace
is exactly `pageRange 1 (k + 1)`.  A run of full pages forces one more request
even when that next page is empty (the `pg (1 + k) = []` instance). -/
theorem C3_pagination_termination {α : Type} (server : Nat → PageResponse α)
    (pg : Nat → List α) (k fuel : Nat) (hfuel : k + 1 ≤ fuel)
    (hfull : ∀ p ∈ pageRange 1 k, server p = PageResponse.ok (pg p) ∧
        ¬ (pg p).length < POSTS_PER_PAGE ∧ (pg p).length ≤ POSTS_PER_PAGE)
    (hlast : server (1 + k) = PageResponse.ok (pg (1 + k)))
    (hshort : (pg (1 + k)).length < POSTS_PER_PAGE) :
    getChildPostsOnce server fuel =
      some (Except.ok (((pageRange 1 (k + 1)).map pg).flatten, pageRange 1 (k + 1))) := by
  have h := onceAux_full_then_short server pg k 1 fuel [] [] hfuel hfull hlast hshort
  simpa [getChildPostsOnce] using h

/-- Witness for C3: with `P = 30`, a 31-item collection (page 1: 30 items,
page 2: 1 item) is enumerated with exactly the two requests `[1, 2]`. -/
theorem C3_pagination_termination_witness :
    getChildPostsOnce c3server 5 =
      some (Except.ok (((pageRange 1 2).map c3pg).flatten, pageRange 1 2)) :=
  C3_pagination_termination c3server c3pg 1 5 (by decide) (by decide) (by decide)
    (by decide)

/-! ### Claim C1: double enumeration and exact comparison -/

/-- C1: when both full enumerations succeed, producing the ordered item
sequences `list1` and `list2`, `get_child_posts` returns exactly `list1` when
the two sequences are equal, and fails with `listingInconsistent` on any
difference (reordering, addition, removal); it never returns a partial or
merged result. -/
theorem C1_double_enumeration_consistency {α : Type} [DecidableEq α]
    (server1 server2 : Nat → PageResponse α) (fuel : Nat)
    (list1 list2 : List α) (t1 t2 : List Nat)
    (h1 : getChildPostsOnce server1 fuel = some (Except.ok (list1, t1)))
    (h2 : getChildPostsOnce server2 fuel = some (Except.ok (list2, t2))) :
    getChildPosts server1 server2 fuel =
      some (if list1 = list2 then Except.ok list1
            else Except.error ListError.listingInconsistent) := by
  unfold getChildPosts
  rw [h1, h2]
  by_cases h : list1 = list2 <;> simp [h]

/-- Witness for C1: the two passes return `[1]` and `[2]`, which differ, so
the result is `listingInconsistent`. -/
theorem C1_double_enumeration_consistency_witness :
    getChildPosts c1server1 c1server2 3 =
      some (if ([1] : List Nat) = [2] then Except.ok [1]
            else Except.error ListError.listingInconsistent) :=
  C1_double_enumeration_consistency c1server1 c1server2 3 [1] [2] [1] [1] rfl rfl

/-! ### Claim C7: oversized page is fatal -/

/-- C7: a page strictly larger than `POSTS_PER_PAGE`, whatever its items, makes
the enumeration abort with `protocolViolation`; the result holds for every
`server2`, i.e. the second enumeration pass is never consulted and the
violation is not retried. -/
theorem C7_oversized_page_fatal {α : Type} [DecidableEq α]
    (server1 server2 : Nat → PageResponse α)
    (pg : Nat → List α) (k fuel : Nat) (hfuel : k + 1 ≤ fuel)
    (hfull : ∀ p ∈ pageRange 1 k, server1 p = PageResponse.ok (pg p) ∧
        ¬ (pg p).length < POSTS_PER_PAGE ∧ (pg p).length ≤ POSTS_PER_PAGE)
    (hlast : server1 (1 + k) = PageResponse.ok (pg (1 + k)))
    (hover : POSTS_PER_PAGE < (pg (1 + k)).length) :
    getChildPosts server1 server2 fuel =
      some (Except.error ListError.protocolViolation) := by
  have h := onceAux_full_then_oversized server1 pg k 1 fuel [] [] hfuel hfull hlast hover
  unfold getChildPosts getChildPostsOnce
  rw [h]

/-- Witness for C7: a 31-item page aborts the listing with
`protocolViolation`, for an arbitrary second-pass server. -/
theorem C7_oversized_page_fatal_witness :
    getChildPosts c7server c1server1 5 =
      some (Except.error ListError.protocolViolation) :=
  C7_oversized_page_fatal c7server c1server1 (fun _ => List.range 31) 0 5
    (by decide) (by decide) (by decide) (by decide)

theorem takeToDot_append {a b : List Char} (ha : '.' ∉ a) (hb : b ≠ []) :
    takeToDot (a ++ '.' :: b) = some (a ++ ['.']) := by
  induction a with
  | nil => simp [takeToDot, hb]
  | cons c cs ih =>
    have hc : ¬ c = '.' := fun h => ha (h ▸ List.mem_cons_self c cs)
    have ih2 := ih (fun h => ha (List.mem_cons_of_mem c h))
    simp [takeToDot, hc, ih2]

/-- The suffix of `stem ++ '.' :: t` is `'.' :: t` when `stem` is nonempty and
`t` is a nonempty dot-free tail. -/
theorem suffixOf_append_ext {stem t : List Char} (hs : stem ≠ []) (ht : t ≠ [])
    (hdot : '.' ∉ t) : suffixOf (stem ++ '.' :: t) = '.' :: t := by
  obtain ⟨c, cs, hrev⟩ : ∃ c cs, t.reverse = c :: cs := by
    cases htr : t.reverse with
    | nil => exact absurd (by simpa using congrArg List.reverse htr) ht
    | cons c cs => exact ⟨c, cs, rfl⟩
  have hc : c ∈ t := by
    have : c ∈ t.reverse := hrev ▸ List.mem_cons_self c cs
    simpa using this
  have hcne : ¬ c = '.' := fun h => hdot (h ▸ hc)
  have hrevall : (stem ++ '.' :: t).reverse = c :: (cs ++ '.' :: stem.reverse) := by
    simp [List.reverse_append, hrev]
  have hnodot : '.' ∉ c :: cs := by
    intro h
    exact hdot (by simpa using (hrev ▸ h : _ ∈ t.reverse))
  have hsr : stem.reverse ≠ [] := by
    intro h
    exact hs (by simpa using congrArg List.reverse h)
  have htd : takeToDot (c :: (cs ++ '.' :: stem.reverse)) = some ((c :: cs) ++ ['.']) := by
    have := takeToDot_append (a := c :: cs) (b := stem.reverse) hnodot hsr
    simpa using this
  unfold suffixOf
  rw [hrevall]
  simp only [if_neg hcne, htd]
  have : ((c :: cs) ++ ['.']).reverse = '.' :: t := by
    simp [← hrev]
  simpa using this

/-- Any successful `takeToDot` scan splits its input at the first dot. -/
theorem takeToDot_spec : ∀ (l r : List Char), takeToDot l = some r →
    ∃ a b, l = a ++ '.' :: b ∧ '.' ∉ a ∧ b ≠ [] ∧ r = a ++ ['.'] := by
  intro l
  induction l with
  | nil => intro r htd; simp [takeToDot] at htd
  | cons c rest ih =>
    intro r htd
    by_cases hc : c = '.'
    · subst hc
      simp only [takeToDot, if_pos rfl] at htd
      by_cases hrest : rest = []
      · rw [if_pos hrest] at htd; simp at htd
      · rw [if_neg hrest] at htd
        have hr : r = ['.'] := by simpa using htd.symm
        exact ⟨[], rest, by simp, by simp, hrest, by simp [hr]⟩
    · simp only [takeToDot, if_neg hc] at htd
      match htd2 : takeToDot rest with
      | none => rw [htd2] at htd; simp at htd
      | some r2 =>
        rw [htd2] at htd
        have hr : r = c :: r2 := by simpa using htd.symm
        obtain ⟨a2, b2, hsp2, hnd2, hb2, hr2⟩ := ih r2 htd2
        refine ⟨c :: a2, b2, by simp [hsp2], ?_, hb2, by simp [hr, hr2]⟩
        intro hmem
        rcases List.mem_cons.mp hmem with h1 | h1
        · exact hc h1.symm
        · exact hnd2 h1

theorem suffixOf_eq_of_rev_nil {name : PathName} (h : name.reverse = []) :
    suffixOf name = [] := by
  unfold suffixOf
  rw [h]

theorem suffixOf_eq_of_rev {name : PathName} {c : Char} {rest : List Char}
    (h : name.reverse = c :: rest) :
    suffixOf name =
      if c = '.' then []
      else
        match takeToDot (c :: rest) with
        | none => []
        | some r => r.reverse := by
  unfold suffixOf
  rw [h]

/-- Structure of a nonempty suffix: the name splits as `stem ++ suffix` with a
nonempty stem, and the suffix is a dot followed by a nonempty dot-free tail. -/
theorem suffixOf_spec {name : PathName} (h : suffixOf name ≠ []) :
    ∃ stem t, name = stem ++ '.' :: t ∧ stem ≠ [] ∧ t ≠ [] ∧ '.' ∉ t ∧
      suffixOf name = '.' :: t := by
  match hrev : name.reverse with
  | [] => exact absurd (suffixOf_eq_of_rev_nil hrev) h
  | c :: rest =>
    have heq := suffixOf_eq_of_rev hrev
    by_cases hc : c = '.'
    · rw [if_pos hc] at heq; exact absurd heq h
    · rw [if_neg hc] at heq
      match htd : takeToDot (c :: rest) with
      | none => rw [htd] at heq; exact absurd heq h
      | some r =>
        rw [htd] at heq
        have heq2 : suffixOf name = r.reverse := heq
        obtain ⟨a, b, hsplit, hnodot, hb, hr⟩ := takeToDot_spec (c :: rest) r htd
        have ha : a ≠ [] := by
          intro h0
          subst h0
          simp at hsplit
          exact hc hsplit.1
        refine ⟨b.reverse, a.reverse, ?_, ?_, ?_, ?_, ?_⟩
        · have hn := congrArg List.reverse hrev
          rw [List.reverse_reverse] at hn
          rw [hn, hsplit]
          simp
        · simpa using hb
        · simpa using ha
        · intro hmem; exact hnodot (by simpa using hmem)
        · rw [heq2, hr]
          simp

/-- The temporary path for a nonempty destination name always carries the
`.unfinished` suffix. -/
theorem suffixOf_tempPath {name : PathName} (h : name ≠ []) :
    suffixOf (tempPath name) = unfinishedSuffix := by
  have hu : unfinishedSuffix = '.' :: "unfinished".data := by decide
  have htail : ("unfinished".data : List Char) ≠ [] := by decide
  have hnod : '.' ∉ ("unfinished".data : List Char) := by decide
  unfold tempPath withSuffix
  by_cases hold : suffixOf name = []
  · simp only [hold, if_pos rfl]
    rw [hu]
    exact suffixOf_append_ext h htail hnod
  · simp only [if_neg hold]
    obtain ⟨stem, t, hsp, hs, _, _, hsfx⟩ := suffixOf_spec hold
    have hlen : name.length - (suffixOf name).length = stem.length := by
      rw [hsfx, hsp]; simp
    rw [hlen, hsp, List.take_left, hu]
    exact suffixOf_append_ext hs htail hnod

/-- Applying `with_suffix` on a name with a valid extension replaces that extension. -/
theorem withSuffix_replaces {stem t : List Char} (hs : stem ≠ []) (ht : t ≠ [])
    (hdot : '.' ∉ t) (s : PathName) : withSuffix (stem ++ '.' :: t) s = stem ++ s := by
  unfold withSuffix
  rw [suffixOf_append_ext hs ht hdot]
  rw [if_neg (by simp)]
  have hlen : (stem ++ '.' :: t).length - ('.' :: t).length = stem.length := by simp
  rw [hlen, List.take_left]

/-! ### Step-equation lemmas

One lemma per branch of `stepTask`, so invariance proofs can do structured
case analysis without re-unfolding the step function. -/

theorem step_oob {mE : Nat → List PathName} {net : Nat → GetResult} {st : BatchState}
    {i : Nat} (h : st.tasks[i]? = none) : stepTask mE net st i = st := by
  simp only [stepTask, h]

theorem step_done {mE : Nat → List PathName} {net : Nat → GetResult} {st : BatchState}
    {i : Nat} {t : TaskState} {o : Outcome} (h : st.tasks[i]? = some t)
    (hp : t.phase = .done o) : stepTask mE net st i = st := by
  simp only [stepTask, h, hp]

theorem step_assert {mE : Nat → List PathName} {net : Nat → GetResult} {st : BatchState}
    {i : Nat} {t : TaskState} (h : st.tasks[i]? = some t) (hp : t.phase = .start)
    (hs : suffixOf t.item.filename = unfinishedSuffix) :
    stepTask mE net st i =
      { st with tasks := st.tasks.set i { t with phase := .done .failedAssert } } := by
  simp only [stepTask, h, hp, if_pos hs]

theorem step_blocked {mE : Nat → List PathName} {net : Nat → GetResult} {st : BatchState}
    {i : Nat} {t : TaskState} (h : st.tasks[i]? = some t) (hp : t.phase = .start)
    (hs : ¬ suffixOf t.item.filename = unfinishedSuffix) (hsem : st.sem = 0) :
    stepTask mE net st i = st := by
  simp only [stepTask, h, hp, if_neg hs, if_pos hsem]

theorem step_acquire {mE : Nat → List PathName} {net : Nat → GetResult} {st : BatchState}
    {i : Nat} {t : TaskState} (h : st.tasks[i]? = some t) (hp : t.phase = .start)
    (hs : ¬ suffixOf t.item.filename = unfinishedSuffix) (hsem : ¬ st.sem = 0) :
    stepTask mE net st i =
      { st with sem := st.sem - 1,
                tasks := st.tasks.set i { t with phase := .acquired } } := by
  simp only [stepTask, h, hp, if_neg hs, if_neg hsem]

theorem step_get_transport {mE : Nat → List PathName} {net : Nat → GetResult}
    {st : BatchState} {i : Nat} {t : TaskState} (h : st.tasks[i]? = some t)
    (hp : t.phase = .acquired) (hnet : net i = .transportError) :
    stepTask mE net st i =
      { st with sem := st.sem + 1,
                tasks := st.tasks.set i { t with phase := .done .failedTransport },
                fetchLog := st.fetchLog ++ [i] } := by
  simp only [stepTask, h, hp, hnet]

theorem step_get_status {mE : Nat → List PathName} {net : Nat → GetResult}
    {st : BatchState} {i : Nat} {t : TaskState} {ct : Nat} {b : Option Content}
    (h : st.tasks[i]? = some t) (hp : t.phase = .acquired)
    (hnet : net i = .response false ct b) :
    stepTask mE net st i =
      { st with sem := st.sem + 1,
                tasks := st.tasks.set i { t with phase := .done .failedStatus },
                fetchLog := st.fetchLog ++ [i] } := by
  simp only [stepTask, h, hp, hnet]
  rw [if_pos trivial]

theorem step_get_mismatch {mE : Nat → List PathName} {net : Nat → GetResult}
    {st : BatchState} {i : Nat} {t : TaskState} {ct : Nat} {b : Option Content}
    (h : st.tasks[i]? = some t) (hp : t.phase = .acquired)
    (hnet : net i = .response true ct b)
    (hmm : suffixOf t.item.filename ∉ mE ct) :
    stepTask mE net st i =
      { st with sem := st.sem + 1,
                tasks := st.tasks.set i { t with phase := .done .failedMismatch },
                fetchLog := st.fetchLog ++ [i] } := by
  simp only [stepTask, h, hp, hnet]
  rw [if_neg (by simp), if_pos hmm]

theorem step_get_open {mE : Nat → List PathName} {net : Nat → GetResult}
    {st : BatchState} {i : Nat} {t : TaskState} {ct : Nat} {b : Option Content}
    (h : st.tasks[i]? = some t) (hp : t.phase = .acquired)
    (hnet : net i = .response true ct b)
    (hok : suffixOf t.item.filename ∈ mE ct) :
    stepTask mE net st i =
      { st with fs := (st.fs.openTrunc (tempPath t.item.filename)).1,
                tasks := st.tasks.set i
                  { t with phase := .reading (st.fs.openTrunc (tempPath t.item.filename)).2 },
                fetchLog := st.fetchLog ++ [i] } := by
  simp only [stepTask, h, hp, hnet]
  rw [if_neg (by simp), if_neg (by simp [hok])]

theorem step_read_transport {mE : Nat → List PathName} {net : Nat → GetResult}
    {st : BatchState} {i : Nat} {t : TaskState} {fd : Nat}
    (h : st.tasks[i]? = some t) (hp : t.phase = .reading fd)
    (hnet : net i = .transportError) :
    stepTask mE net st i =
      { st with sem := st.sem + 1,
                tasks := st.tasks.set i { t with phase := .done .failedRead } } := by
  simp only [stepTask, h, hp, hnet]

theorem step_read_none {mE : Nat → List PathName} {net : Nat → GetResult}
    {st : BatchState} {i : Nat} {t : TaskState} {fd : Nat} {s : Bool} {ct : Nat}
    (h : st.tasks[i]? = some t) (hp : t.phase = .reading fd)
    (hnet : net i = .response s ct none) :
    stepTask mE net st i =
      { st with sem := st.sem + 1,
                tasks := st.tasks.set i { t with phase := .done .failedRead } } := by
  simp only [stepTask, h, hp, hnet]

theorem step_read_rename_ok {mE : Nat → List PathName} {net : Nat → GetResult}
    {st : BatchState} {i : Nat} {t : TaskState} {fd : Nat} {s : Bool} {ct : Nat}
    {body : Content} {fs2 : FS}
    (h : st.tasks[i]? = some t) (hp : t.phase = .reading fd)
    (hnet : net i = .response s ct (some body))
    (hre : (st.fs.writeFd fd body).rename (tempPath t.item.filename) t.item.filename =
      some fs2) :
    stepTask mE net st i =
      { st with fs := fs2, sem := st.sem + 1,
                tasks := st.tasks.set i { t with phase := .done .completed } } := by
  simp only [stepTask, h, hp, hnet, hre]

theorem step_read_rename_fail {mE : Nat → List PathName} {net : Nat → GetResult}
    {st : BatchState} {i : Nat} {t : TaskState} {fd : Nat} {s : Bool} {ct : Nat}
    {body : Content}
    (h : st.tasks[i]? = some t) (hp : t.phase = .reading fd)
    (hnet : net i = .response s ct (some body))
    (hre : (st.fs.writeFd fd body).rename (tempPath t.item.filename) t.item.filename =
      none) :
    stepTask mE net st i =
      { st with fs := st.fs.writeFd fd body, sem := st.sem + 1,
                tasks := st.tasks.set i { t with phase := .done .failedRename } } := by
  simp only [stepTask, h, hp, hnet, hre]

theorem get_set_self {α : Type} {l : List α} {i : Nat} {x t : α}
    (h : l[i]? = some t) : (l.set i x)[i]? = some x := by
  have hi : i < l.length := by
    by_contra hlt
    rw [List.getElem?_eq_none (by omega)] at h
    exact Option.noConfusion h
  rw [List.getElem?_set_self hi]

theorem stepTask_cases (mE : Nat → List PathName) (net : Nat → GetResult)
    (st : BatchState) (i : Nat) : StepSpec mE net st i := by
  cases hget : st.tasks[i]? with
  | none => exact Or.inl (step_oob hget)
  | some t =>
    cases hph : t.phase with
    | start =>
      by_cases hs : suffixOf t.item.filename = unfinishedSuffix
      · exact Or.inr ⟨t, hget, Or.inl ⟨hph, hs, step_assert hget hph hs⟩⟩
      · by_cases hsem : st.sem = 0
        · exact Or.inl (step_blocked hget hph hs hsem)
        · exact Or.inr ⟨t, hget,
            Or.inr (Or.inl ⟨hph, hsem, step_acquire hget hph hs hsem⟩)⟩
    | acquired =>
      cases hnet : net i with
      | transportError =>
        exact Or.inr ⟨t, hget, Or.inr (Or.inr (Or.inl ⟨hph,
          Outcome.failedTransport, Or.inl rfl, step_get_transport hget hph hnet⟩))⟩
      | response sOk ct b =>
        cases sOk with
        | false =>
          exact Or.inr ⟨t, hget, Or.inr (Or.inr (Or.inl ⟨hph,
            Outcome.failedStatus, Or.inr (Or.inl rfl), step_get_status hget hph hnet⟩))⟩
        | true =>
          by_cases hmm : suffixOf t.item.filename ∈ mE ct
          · exact Or.inr ⟨t, hget, Or.inr (Or.inr (Or.inr (Or.inl ⟨hph,
              ⟨ct, b, hnet, hmm⟩, step_get_open hget hph hnet hmm⟩)))⟩
          · exact Or.inr ⟨t, hget, Or.inr (Or.inr (Or.inl ⟨hph,
              Outcome.failedMismatch, Or.inr (Or.inr rfl),
              step_get_mismatch hget hph hnet hmm⟩))⟩
    | reading fd =>
      cases hnet : net i with
      | transportError =>
        exact Or.inr ⟨t, hget, Or.inr (Or.inr (Or.inr (Or.inr (Or.inl
          ⟨fd, hph, step_read_transport hget hph hnet⟩))))⟩
      | response s ct b =>
        cases b with
        | none =>
          exact Or.inr ⟨t, hget, Or.inr (Or.inr (Or.inr (Or.inr (Or.inl
            ⟨fd, hph, step_read_none hget hph hnet⟩))))⟩
        | some body =>
          cases hre : (st.fs.writeFd fd body).rename (tempPath t.item.filename)
              t.item.filename with
          | some fs2 =>
            exact Or.inr ⟨t, hget, Or.inr (Or.inr (Or.inr (Or.inr (Or.inr (Or.inl
              ⟨fd, body, s, ct, fs2, hph, hnet, hre,
                step_read_rename_ok hget hph hnet hre⟩)))))⟩
          | none =>
            exact Or.inr ⟨t, hget, Or.inr (Or.inr (Or.inr (Or.inr (Or.inr (Or.inr
              ⟨fd, body, s, ct, hph, hnet, hre,
                step_read_rename_fail hget hph hnet hre⟩)))))⟩
    | done o => exact Or.inl (step_done hget hph)

/-! ### Generic facts about steps and runs -/

theorem step_get_ne {mE : Nat → List PathName} {net : Nat → GetResult}
    {st : BatchState} {i j : Nat} (hj : j ≠ i) :
    (stepTask mE net st i).tasks[j]? = st.tasks[j]? := by
  rcases stepTask_cases mE net st i with heq | ⟨t, hget, hc⟩
  · rw [heq]
  · rcases hc with ⟨_, _, heq⟩ | ⟨_, _, heq⟩ | ⟨_, o, _, heq⟩ | ⟨_, _, heq⟩ |
      ⟨fd, _, heq⟩ | ⟨fd, body, s, ct, fs2, _, _, _, heq⟩ |
      ⟨fd, body, s, ct, _, _, _, heq⟩ <;>
    · rw [heq]; exact List.getElem?_set_ne (Ne.symm hj)

theorem step_tasks_length {mE : Nat → List PathName} {net : Nat → GetResult}
    {st : BatchState} {i : Nat} :
    (stepTask mE net st i).tasks.length = st.tasks.length := by
  rcases stepTask_cases mE net st i with heq | ⟨t, hget, hc⟩
  · rw [heq]
  · rcases hc with ⟨_, _, heq⟩ | ⟨_, _, heq⟩ | ⟨_, o, _, heq⟩ | ⟨_, _, heq⟩ |
      ⟨fd, _, heq⟩ | ⟨fd, body, s, ct, fs2, _, _, _, heq⟩ |
      ⟨fd, body, s, ct, _, _, _, heq⟩ <;>
    · rw [heq]; exact List.length_set st.tasks i _

theorem step_item {mE : Nat → List PathName} {net : Nat → GetResult}
    {st : BatchState} {i : Nat} (j : Nat) :
    ((stepTask mE net st i).tasks[j]?).map TaskState.item =
      (st.tasks[j]?).map TaskState.item := by
  by_cases hj : j = i
  · subst hj
    rcases stepTask_cases mE net st j with heq | ⟨t, hget, hc⟩
    · rw [heq]
    · rcases hc with ⟨_, _, heq⟩ | ⟨_, _, heq⟩ | ⟨_, o, _, heq⟩ | ⟨_, _, heq⟩ |
        ⟨fd, _, heq⟩ | ⟨fd, body, s, ct, fs2, _, _, _, heq⟩ |
        ⟨fd, body, s, ct, _, _, _, heq⟩ <;>
      · rw [heq]
        show ((st.tasks.set j _)[j]?).map _ = _
        rw [get_set_self hget, hget]
        rfl
  · rw [step_get_ne hj]

/-- An invariant preserved by every step is preserved by every run. -/
theorem runSched_inv (mE : Nat → List PathName) (net : Nat → GetResult)
    (P : BatchState → Prop)
    (hstep : ∀ st i, P st → P (stepTask mE net st i)) :
    ∀ (sched : List Nat) (st : BatchState), P st → P (runSched mE net st sched) := by
  intro sched
  induction sched with
  | nil => intro st h; exact h
  | cons i rest ih => intro st h; exact ih (stepTask mE net st i) (hstep st i h)

theorem runSched_tasks_length {mE : Nat → List PathName} {net : Nat → GetResult}
    (sched : List Nat) (st : BatchState) :
    (runSched mE net st sched).tasks.length = st.tasks.length := by
  induction sched generalizing st with
  | nil => rfl
  | cons i rest ih => rw [runSched, ih, step_tasks_length]

theorem runSched_item {mE : Nat → List PathName} {net : Nat → GetResult}
    (sched : List Nat) (st : BatchState) (j : Nat) :
    ((runSched mE net st sched).tasks[j]?).map TaskState.item =
      (st.tasks[j]?).map TaskState.item := by
  induction sched generalizing st with
  | nil => rfl
  | cons i rest ih => rw [runSched, ih, step_item]

/-- If every task is finished, a step changes nothing. -/
theorem step_all_done {mE : Nat → List PathName} {net : Nat → GetResult}
    {st : BatchState}
    (h : ∀ (j : Nat) (t : TaskState), st.tasks[j]? = some t → t.phase.isDone = true) (k : Nat) :
    stepTask mE net st k = st := by
  rcases stepTask_cases mE net st k with heq | ⟨t, hget, hc⟩
  · exact heq
  · exfalso
    rcases hc with ⟨hph, _, _⟩ | ⟨hph, _, _⟩ | ⟨hph, o, _, _⟩ | ⟨hph, _, _⟩ |
      ⟨fd, hph, _⟩ | ⟨fd, body, s, ct, fs2, hph, _, _, _⟩ |
      ⟨fd, body, s, ct, hph, _, _, _⟩ <;>
    · have := h k t hget
      rw [hph] at this
      simp [Phase.isDone] at this

theorem runSched_all_done {mE : Nat → List PathName} {net : Nat → GetResult}
    {st : BatchState}
    (h : ∀ (j : Nat) (t : TaskState), st.tasks[j]? = some t → t.phase.isDone = true)
    (sched : List Nat) : runSched mE net st sched = st := by
  induction sched with
  | nil => rfl
  | cons i rest ih => rw [runSched, step_all_done h, ih]

/-! ### Counting helpers -/

theorem countP_set {α : Type} (p : α → Bool) :
    ∀ (l : List α) (i : Nat) (x t : α), l[i]? = some t →
      (l.set i x).countP p + (if p t then 1 else 0) =
        l.countP p + (if p x then 1 else 0) := by
  intro l
  induction l with
  | nil => intro i x t h; simp at h
  | cons a as ih =>
    intro i x t h
    cases i with
    | zero =>
      rw [List.getElem?_cons_zero] at h
      injection h with h
      subst h
      simp only [List.set, List.countP_cons]
      omega
    | succ n =>
      rw [List.getElem?_cons_succ] at h
      simp only [List.set, List.countP_cons]
      have := ih n x t h
      omega

/-- Two distinct positions holding elements satisfying `p` force `countP ≥ 2`. -/
theorem two_le_countP {α : Type} (p : α → Bool) :
    ∀ (l : List α) (i j : Nat) (a b : α), i ≠ j →
      l[i]? = some a → l[j]? = some b → p a = true → p b = true →
      2 ≤ l.countP p := by
  intro l
  induction l with
  | nil => intro i j a b hij ha hb hpa hpb; simp at ha
  | cons x xs ih =>
    intro i j a b hij ha hb hpa hpb
    cases i with
    | zero =>
      cases j with
      | zero => exact absurd rfl hij
      | succ m =>
        rw [List.getElem?_cons_zero] at ha
        rw [List.getElem?_cons_succ] at hb
        injection ha with ha
        subst ha
        have h1 : 0 < xs.countP p :=
          List.countP_pos.mpr ⟨b, List.getElem?_mem hb, hpb⟩
        have h2 : (x :: xs).countP p = xs.countP p + 1 := by
          rw [List.countP_cons, hpa]; simp
        rw [h2]
        omega
    | succ n =>
      cases j with
      | zero =>
        rw [List.getElem?_cons_succ] at ha
        rw [List.getElem?_cons_zero] at hb
        injection hb with hb
        subst hb
        have h1 : 0 < xs.countP p :=
          List.countP_pos.mpr ⟨a, List.getElem?_mem ha, hpa⟩
        have h2 : (x :: xs).countP p = xs.countP p + 1 := by
          rw [List.countP_cons, hpb]; simp
        rw [h2]
        omega
      | succ m =>
        rw [List.getElem?_cons_succ] at ha
        rw [List.getElem?_cons_succ] at hb
        have := ih n m a b (fun h => hij (by omega)) ha hb hpa hpb
        simp only [List.countP_cons]
        omega

/-! ### Facts about the filesystem operations -/

theorem openTrunc_names_ne {fs : FS} {p q : PathName} (h : q ≠ p) :
    (fs.openTrunc p).1.names q = fs.names q := by
  unfold FS.openTrunc
  cases fs.names p <;> simp [updName, h]

theorem openTrunc_preserves {fs : FS} {p q : PathName}
    (h : fs.names q ≠ none) : (fs.openTrunc p).1.names q ≠ none := by
  by_cases hq : q = p
  · subst hq
    unfold FS.openTrunc
    cases hn : fs.names q with
    | none => exact absurd hn h
    | some i => simpa using h
  · rw [openTrunc_names_ne hq]; exact h

theorem writeFd_names (fs : FS) (fd : Nat) (b : Content) :
    (fs.writeFd fd b).names = fs.names := by
  unfold FS.writeFd
  cases fs.inodes fd <;> rfl

theorem rename_names_other {fs fs2 : FS} {src dst q : PathName}
    (h : fs.rename src dst = some fs2) (hq1 : q ≠ dst) (hq2 : q ≠ src) :
    fs2.names q = fs.names q := by
  unfold FS.rename at h
  cases hn : fs.names src with
  | none => rw [hn] at h; simp at h
  | some i =>
    rw [hn] at h
    injection h with h
    subst h
    simp [updName, hq1, hq2]

theorem rename_names_dst {fs fs2 : FS} {src dst : PathName}
    (h : fs.rename src dst = some fs2) : fs2.names dst ≠ none := by
  unfold FS.rename at h
  cases hn : fs.names src with
  | none => rw [hn] at h; simp at h
  | some i =>
    rw [hn] at h
    injection h with h
    subst h
    simp [updName]

/-- A step can create a name only at the stepped task's temporary path (the
`open`), or at its destination via a successful rename, which requires the
task to be in its reading phase with a completely-read body. -/
theorem step_names_created {mE : Nat → List PathName} {net : Nat → GetResult}
    {st : BatchState} {k : Nat} {q : PathName}
    (hbefore : st.fs.names q = none)
    (hafter : (stepTask mE net st k).fs.names q ≠ none) :
    ∃ t, st.tasks[k]? = some t ∧
      (q = tempPath t.item.filename ∨
       (q = t.item.filename ∧ (∃ fd, t.phase = .reading fd) ∧
        ∃ s ct body, net k = .response s ct (some body))) := by
  rcases stepTask_cases mE net st k with heq | ⟨t, hget, hc⟩
  · rw [heq] at hafter; exact absurd hbefore hafter
  · rcases hc with ⟨_, _, heq⟩ | ⟨_, _, heq⟩ | ⟨_, o, _, heq⟩ | ⟨hph, _, heq⟩ |
      ⟨fd, _, heq⟩ | ⟨fd, body, s, ct, fs2, hph, hnet, hre, heq⟩ |
      ⟨fd, body, s, ct, hph, hnet, hre, heq⟩
    · rw [heq] at hafter; exact absurd hbefore hafter
    · rw [heq] at hafter; exact absurd hbefore hafter
    · rw [heq] at hafter; exact absurd hbefore hafter
    · rw [heq] at hafter
      refine ⟨t, hget, ?_⟩
      by_cases hq : q = tempPath t.item.filename
      · exact Or.inl hq
      · exact absurd ((openTrunc_names_ne hq).trans hbefore) hafter
    · rw [heq] at hafter; exact absurd hbefore hafter
    · refine ⟨t, hget, ?_⟩
      by_cases hq : q = t.item.filename
      · exact Or.inr ⟨hq, ⟨fd, hph⟩, s, ct, body, hnet⟩
      · by_cases hq2 : q = tempPath t.item.filename
        · exact Or.inl hq2
        · exfalso
          rw [heq] at hafter
          have h1 : fs2.names q = st.fs.names q := by
            rw [rename_names_other hre hq hq2, writeFd_names]
          exact hafter (h1.trans hbefore)
    · rw [heq] at hafter
      have h1 : (st.fs.writeFd fd body).names q = st.fs.names q := by
        rw [writeFd_names]
      exact absurd (h1.trans hbefore) hafter

/-- A step can remove a name only at the stepped task's temporary path (the
source of the rename). -/
theorem step_names_removed {mE : Nat → List PathName} {net : Nat → GetResult}
    {st : BatchState} {k : Nat} {q : PathName}
    (hbefore : st.fs.names q ≠ none)
    (hafter : (stepTask mE net st k).fs.names q = none) :
    ∃ t, st.tasks[k]? = some t ∧ q = tempPath t.item.filename := by
  rcases stepTask_cases mE net st k with heq | ⟨t, hget, hc⟩
  · rw [heq] at hafter; exact absurd hafter hbefore
  · rcases hc with ⟨_, _, heq⟩ | ⟨_, _, heq⟩ | ⟨_, o, _, heq⟩ | ⟨hph, _, heq⟩ |
      ⟨fd, _, heq⟩ | ⟨fd, body, s, ct, fs2, hph, hnet, hre, heq⟩ |
      ⟨fd, body, s, ct, hph, hnet, hre, heq⟩
    · rw [heq] at hafter; exact absurd hafter hbefore
    · rw [heq] at hafter; exact absurd hafter hbefore
    · rw [heq] at hafter; exact absurd hafter hbefore
    · rw [heq] at hafter
      exfalso
      exact openTrunc_preserves hbefore hafter
    · rw [heq] at hafter; exact absurd hafter hbefore
    · refine ⟨t, hget, ?_⟩
      by_cases hq2 : q = tempPath t.item.filename
      · exact hq2
      · exfalso
        rw [heq] at hafter
        by_cases hq : q = t.item.filename
        · exact rename_names_dst hre (hq ▸ hafter)
        · have h1 : fs2.names q = (st.fs.writeFd fd body).names q :=
            rename_names_other hre hq hq2
          rw [writeFd_names] at h1
          exact hbefore (by rw [← h1]; exact hafter)
    · rw [heq] at hafter
      exact absurd (by rw [← writeFd_names st.fs fd body]; exact hafter) hbefore

theorem holdsSem_start : Phase.start.holdsSem = false := rfl

theorem holdsSem_acquired : Phase.acquired.holdsSem = true := rfl

theorem holdsSem_reading (fd : Nat) : (Phase.reading fd).holdsSem = true := rfl

theorem holdsSem_done (o : Outcome) : (Phase.done o).holdsSem = false := rfl

theorem if_false_nat : (if false = true then (1 : Nat) else 0) = 0 := rfl

theorem if_true_nat : (if true = true then (1 : Nat) else 0) = 1 := rfl

/-- Lemma `countP_set` specialised to the semaphore-holder count, with the redexes
reduced. -/
theorem holders_set (ts : List TaskState) (i : Nat) (t : TaskState) (ph : Phase)
    (hget : ts[i]? = some t) :
    (ts.set i { t with phase := ph }).countP (fun u => u.phase.holdsSem) +
      (if t.phase.holdsSem = true then 1 else 0) =
    ts.countP (fun u => u.phase.holdsSem) +
      (if ph.holdsSem = true then 1 else 0) :=
  countP_set (fun u => u.phase.holdsSem) ts i { t with phase := ph } t hget

theorem step_semInv {mE : Nat → List PathName} {net : Nat → GetResult}
    {st : BatchState} {i : Nat} (h : semInv st) : semInv (stepTask mE net st i) := by
  rcases stepTask_cases mE net st i with heq | ⟨t, hget, hc⟩
  · rw [heq]; exact h
  · unfold semInv holders at h ⊢
    rcases hc with ⟨hph, hs, heq⟩ | ⟨hph, hsem, heq⟩ | ⟨hph, o, ho, heq⟩ | ⟨hph, hw, heq⟩ |
      ⟨fd, hph, heq⟩ | ⟨fd, body, s, ct, fs2, hph, hnet, hre, heq⟩ |
      ⟨fd, body, s, ct, hph, hnet, hre, heq⟩
    · rw [heq]
      have hc2 := holders_set st.tasks i t (.done .failedAssert) hget
      rw [hph] at hc2
      simp only [holdsSem_start, holdsSem_acquired, holdsSem_reading,
        holdsSem_done, if_false_nat, if_true_nat, if_true, if_false] at hc2
      dsimp only
      omega
    · rw [heq]
      have hc2 := holders_set st.tasks i t (.acquired) hget
      rw [hph] at hc2
      simp only [holdsSem_start, holdsSem_acquired, holdsSem_reading,
        holdsSem_done, if_false_nat, if_true_nat, if_true, if_false] at hc2
      dsimp only
      omega
    · rw [heq]
      have hc2 := holders_set st.tasks i t (.done o) hget
      rw [hph] at hc2
      simp only [holdsSem_start, holdsSem_acquired, holdsSem_reading,
        holdsSem_done, if_false_nat, if_true_nat, if_true, if_false] at hc2
      dsimp only
      omega
    · rw [heq]
      have hc2 := holders_set st.tasks i t (.reading (st.fs.openTrunc (tempPath t.item.filename)).2) hget
      rw [hph] at hc2
      simp only [holdsSem_start, holdsSem_acquired, holdsSem_reading,
        holdsSem_done, if_false_nat, if_true_nat, if_true, if_false] at hc2
      dsimp only
      omega
    · rw [heq]
      have hc2 := holders_set st.tasks i t (.done .failedRead) hget
      rw [hph] at hc2
      simp only [holdsSem_start, holdsSem_acquired, holdsSem_reading,
        holdsSem_done, if_false_nat, if_true_nat, if_true, if_false] at hc2
      dsimp only
      omega
    · rw [heq]
      have hc2 := holders_set st.tasks i t (.done .completed) hget
      rw [hph] at hc2
      simp only [holdsSem_start, holdsSem_acquired, holdsSem_reading,
        holdsSem_done, if_false_nat, if_true_nat, if_true, if_false] at hc2
      dsimp only
      omega
    · rw [heq]
      have hc2 := holders_set st.tasks i t (.done .failedRename) hget
      rw [hph] at hc2
      simp only [holdsSem_start, holdsSem_acquired, holdsSem_reading,
        holdsSem_done, if_false_nat, if_true_nat, if_true, if_false] at hc2
      dsimp only
      omega

theorem initTask_not_holdsSem (fs0 : FS) (it : DownloadItem) :
    (initTask fs0 it).phase.holdsSem = false := by
  unfold initTask
  by_cases h : fs0.existsAt it.filename <;> simp [h, Phase.holdsSem]

theorem semInv_init (fs0 : FS) (items : List DownloadItem) :
    semInv (initBatch fs0 items) := by
  unfold semInv holders initBatch
  dsimp only
  rw [List.countP_map]
  have hz : List.countP ((fun t => t.phase.holdsSem) ∘ initTask fs0) items = 0 :=
    List.countP_eq_zero.mpr
      (fun it _ => by simp [Function.comp, initTask_not_holdsSem])
  rw [hz]
  rfl

/-- C9: at every instant of every execution of `download_urls` (every prefix
of every schedule), the number of simultaneously in-flight fetches — tasks
holding the `asyncio.Semaphore` between admission and the end of their
transfer — never exceeds `MAX_CONCURRENT_DOWNLOADS`; tasks beyond the cap
remain in their pre-admission phase until a slot frees. -/
theorem C9_concurrency_bound (mE : Nat → List PathName) (net : Nat → GetResult)
    (fs0 : FS) (items : List DownloadItem) (sched : List Nat) (n : Nat) :
    holders (downloadUrls mE net fs0 items (sched.take n)) ≤
      MAX_CONCURRENT_DOWNLOADS := by
  have h := runSched_inv mE net semInv (fun st i h => step_semInv h) (sched.take n)
    (initBatch fs0 items) (semInv_init fs0 items)
  unfold semInv at h
  unfold downloadUrls
  omega

theorem count_append_singleton (l : List Nat) (i j : Nat) :
    (l ++ [i]).count j = l.count j + (if i = j then 1 else 0) := by
  rw [List.count_append]
  by_cases h : i = j <;> simp [h, List.count_cons]

theorem step_logInv {mE : Nat → List PathName} {net : Nat → GetResult}
    {st : BatchState} {i : Nat} (h : logInv st) : logInv (stepTask mE net st i) := by
  rcases stepTask_cases mE net st i with heq | ⟨t, hget, hc⟩
  · rw [heq]; exact h
  · intro j
    by_cases hj : j = i
    · subst hj
      rcases hc with ⟨hph, hs, heq⟩ | ⟨hph, hsem, heq⟩ | ⟨hph, o, ho, heq⟩ |
        ⟨hph, hw, heq⟩ | ⟨fd, hph, heq⟩ |
        ⟨fd, body, s, ct, fs2, hph, hnet, hre, heq⟩ |
        ⟨fd, body, s, ct, hph, hnet, hre, heq⟩ <;>
        rw [heq] <;> dsimp only <;> rw [get_set_self hget]
      · simpa [hget, hph, Phase.postFetch] using h j
      · simpa [hget, hph, Phase.postFetch] using h j
      · rw [count_append_singleton]
        rcases ho with rfl | rfl | rfl <;>
          simpa [hget, hph, Phase.postFetch] using h j
      · rw [count_append_singleton]
        simpa [hget, hph, Phase.postFetch] using h j
      · simpa [hget, hph, Phase.postFetch] using h j
      · simpa [hget, hph, Phase.postFetch] using h j
      · simpa [hget, hph, Phase.postFetch] using h j
    · rcases hc with ⟨hph, hs, heq⟩ | ⟨hph, hsem, heq⟩ | ⟨hph, o, ho, heq⟩ |
        ⟨hph, hw, heq⟩ | ⟨fd, hph, heq⟩ |
        ⟨fd, body, s, ct, fs2, hph, hnet, hre, heq⟩ |
        ⟨fd, body, s, ct, hph, hnet, hre, heq⟩ <;>
        rw [heq] <;> dsimp only <;>
        rw [List.getElem?_set_ne (Ne.symm hj)]
      · exact h j
      · exact h j
      · rw [count_append_singleton, h j]
        simp [Ne.symm hj]
      · rw [count_append_singleton, h j]
        simp [Ne.symm hj]
      · exact h j
      · exact h j
      · exact h j

theorem logInv_init (fs0 : FS) (items : List DownloadItem) :
    logInv (initBatch fs0 items) := by
  intro j
  unfold initBatch
  dsimp only
  rw [List.getElem?_map, List.count_nil]
  cases hj : items[j]? with
  | none => rfl
  | some it =>
    dsimp only [Option.map]
    unfold initTask
    by_cases h : fs0.existsAt it.filename <;> simp [h, Phase.postFetch]

theorem step_originInv {mE : Nat → List PathName} {net : Nat → GetResult}
    {fs0 : FS} {items : List DownloadItem} {st : BatchState} {i : Nat}
    (h : originInv fs0 items st) : originInv fs0 items (stepTask mE net st i) := by
  intro j t2 hget2
  by_cases hj : j = i
  · subst hj
    rcases stepTask_cases mE net st j with heq | ⟨t, hget, hc⟩
    · rw [heq] at hget2; exact h j t2 hget2
    · have hold := h j t hget
      rcases hc with ⟨hph, hs, heq⟩ | ⟨hph, hsem, heq⟩ | ⟨hph, o, ho, heq⟩ |
        ⟨hph, hw, heq⟩ | ⟨fd, hph, heq⟩ |
        ⟨fd, body, s, ct, fs2, hph, hnet, hre, heq⟩ |
        ⟨fd, body, s, ct, hph, hnet, hre, heq⟩ <;>
      · rw [heq] at hget2
        dsimp only at hget2
        rw [get_set_self hget] at hget2
        injection hget2 with hget2
        subst hget2
        refine ⟨hold.1, Or.inr ?_⟩
        rcases hold.2 with hskip | habs
        · rw [hskip] at hph; exact absurd hph (by simp)
        · exact habs
  · rw [step_get_ne hj] at hget2
    exact h j t2 hget2

theorem originInv_init (fs0 : FS) (items : List DownloadItem) :
    originInv fs0 items (initBatch fs0 items) := by
  intro j t hget
  unfold initBatch at hget
  dsimp only at hget
  rw [List.getElem?_map] at hget
  cases hj : items[j]? with
  | none => rw [hj] at hget; exact absurd hget (by simp)
  | some it =>
    rw [hj] at hget
    dsimp only [Option.map] at hget
    injection hget with hget
    subst hget
    unfold initTask
    by_cases h : fs0.existsAt it.filename <;> simp [h, hj]

/-- C4 amended: `download_urls` performs no deduplication by destination path;
its only pre-filter is the `final_path.exists()` check against the filesystem
as it is when the batch starts.  What holds is: every fetch that is issued
belongs to a task whose destination was absent at invocation start, and each
*task* fetches at most once — but two tasks with the same destination path
each get their own fetch (see the counterexample). -/
theorem C4_prefilter_no_dedup (mE : Nat → List PathName) (net : Nat → GetResult)
    (fs0 : FS) (items : List DownloadItem) (sched : List Nat) :
    (∀ j, (downloadUrls mE net fs0 items sched).fetchLog.count j ≤ 1) ∧
    (∀ j, j ∈ (downloadUrls mE net fs0 items sched).fetchLog →
      ∃ it, items[j]? = some it ∧ fs0.existsAt it.filename = false) := by
  have hlog : logInv (downloadUrls mE net fs0 items sched) :=
    runSched_inv mE net logInv (fun st i h => step_logInv h) sched
      (initBatch fs0 items) (logInv_init fs0 items)
  have horig : originInv fs0 items (downloadUrls mE net fs0 items sched) :=
    runSched_inv mE net (originInv fs0 items)
      (fun st i h => step_originInv h) sched
      (initBatch fs0 items) (originInv_init fs0 items)
  constructor
  · intro j
    rw [hlog j]
    cases hget : (downloadUrls mE net fs0 items sched).tasks[j]? with
    | none => simp
    | some t => by_cases hp : t.phase.postFetch <;> simp [hp]
  · intro j hmem
    have hpos : 0 < (downloadUrls mE net fs0 items sched).fetchLog.count j :=
      List.count_pos_iff_mem.mpr hmem
    have h1 := hlog j
    cases hget : (downloadUrls mE net fs0 items sched).tasks[j]? with
    | none =>
      rw [hget] at h1
      simp at h1
      exfalso
      omega
    | some t =>
      rw [hget] at h1
      have hpf : t.phase.postFetch = true := by
        by_cases hp : t.phase.postFetch
        · exact hp
        · simp [hp] at h1
          exfalso
          omega
      have ho := horig j t hget
      refine ⟨t.item, ho.1, ?_⟩
      rcases ho.2 with hskip | habs
      · rw [hskip] at hpf; simp [Phase.postFetch] at hpf
      · exact habs

theorem step_failPhases {mE : Nat → List PathName} {net : Nat → GetResult} {i : Nat}
    (hfail : NetFails (net i) = true) {st : BatchState}
    (h : failPhases net i st) (k : Nat) :
    failPhases net i (stepTask mE net st k) := by
  by_cases hk : i = k
  · subst hk
    intro t2 hget2
    rcases stepTask_cases mE net st i with heq | ⟨t, hget, hc⟩
    · rw [heq] at hget2; exact h t2 hget2
    · have hold := h t hget
      rcases hc with ⟨hph, hs, heq⟩ | ⟨hph, hsem, heq⟩ | ⟨hph, o, ho, heq⟩ |
        ⟨hph, hw, heq⟩ | ⟨fd, hph, heq⟩ |
        ⟨fd, body, s, ct, fs2, hph, hnet, hre, heq⟩ |
        ⟨fd, body, s, ct, hph, hnet, hre, heq⟩ <;>
        rw [heq] at hget2 <;> dsimp only at hget2 <;>
        rw [get_set_self hget] at hget2 <;>
        injection hget2 with hget2 <;> subst hget2
      · exact Or.inr (Or.inr (Or.inr ⟨Outcome.failedAssert, rfl, rfl⟩))
      · exact Or.inr (Or.inl rfl)
      · rcases ho with rfl | rfl | rfl
        · exact Or.inr (Or.inr (Or.inr ⟨Outcome.failedTransport, rfl, rfl⟩))
        · exact Or.inr (Or.inr (Or.inr ⟨Outcome.failedStatus, rfl, rfl⟩))
        · exact Or.inr (Or.inr (Or.inr ⟨Outcome.failedMismatch, rfl, rfl⟩))
      · obtain ⟨ct, b, hnet, hmm⟩ := hw
        have hb : b = none := by
          rw [hnet] at hfail
          cases b with
          | none => rfl
          | some c => simp [NetFails] at hfail
        subst hb
        exact Or.inr (Or.inr (Or.inl
          ⟨⟨(st.fs.openTrunc (tempPath t.item.filename)).2, rfl⟩, ct, hnet⟩))
      · exact Or.inr (Or.inr (Or.inr ⟨Outcome.failedRead, rfl, rfl⟩))
      · exfalso
        rcases hold with h0 | h0 | ⟨h0, ct2, hnet2⟩ | ⟨o, h0, h1⟩
        · rw [hph] at h0; exact Phase.noConfusion h0
        · rw [hph] at h0; exact Phase.noConfusion h0
        · rw [hnet] at hnet2; simp at hnet2
        · rw [hph] at h0; exact Phase.noConfusion h0
      · exfalso
        rcases hold with h0 | h0 | ⟨h0, ct2, hnet2⟩ | ⟨o, h0, h1⟩
        · rw [hph] at h0; exact Phase.noConfusion h0
        · rw [hph] at h0; exact Phase.noConfusion h0
        · rw [hnet] at hnet2; simp at hnet2
        · rw [hph] at h0; exact Phase.noConfusion h0
  · intro t2 hget2
    rw [step_get_ne hk] at hget2
    exact h t2 hget2

theorem failPhases_init {net : Nat → GetResult} {i : Nat} {fs0 : FS}
    {items : List DownloadItem} {it : DownloadItem}
    (hi : items[i]? = some it) (hpend : fs0.existsAt it.filename = false) :
    failPhases net i (initBatch fs0 items) := by
  intro t hget
  unfold initBatch at hget
  dsimp only at hget
  rw [List.getElem?_map, hi] at hget
  dsimp only [Option.map] at hget
  injection hget with hget
  subst hget
  left
  simp [initTask, hpend]

theorem step_itemsInv {mE : Nat → List PathName} {net : Nat → GetResult}
    {items : List DownloadItem} {st : BatchState} {i : Nat}
    (h : itemsInv items st) : itemsInv items (stepTask mE net st i) := by
  intro j t hget
  have h2 : ((stepTask mE net st i).tasks[j]?).map TaskState.item =
      (st.tasks[j]?).map TaskState.item := step_item j
  rw [hget] at h2
  cases hg : st.tasks[j]? with
  | none => rw [hg] at h2; simp at h2
  | some u =>
    rw [hg] at h2
    have h3 : t.item = u.item := by simpa using h2
    rw [h3]
    exact h j u hg

theorem itemsInv_init (fs0 : FS) (items : List DownloadItem) :
    itemsInv items (initBatch fs0 items) := by
  intro j t hget
  unfold initBatch at hget
  dsimp only at hget
  rw [List.getElem?_map] at hget
  cases hj : items[j]? with
  | none => rw [hj] at hget; simp at hget
  | some it =>
    rw [hj] at hget
    dsimp only [Option.map] at hget
    injection hget with hget
    subst hget
    unfold initTask
    by_cases h : fs0.existsAt it.filename <;> simp [h]

/-- C5 (amended): `download_urls` awaits its tasks with `asyncio.gather` and
the default `return_exceptions=False`, so the batch does fail as a unit: when
any pending task's fetch fails (transport error, bad status, or mid-transfer
failure), then once every task has reached a terminal state the batch raises
— `download_urls` propagates the task's exception instead of returning, and
no per-task outcome mapping is produced.  It returns normally only when no
task raised. -/
theorem C5_gather_propagates_failure (mE : Nat → List PathName)
    (net : Nat → GetResult) (fs0 : FS) (items : List DownloadItem)
    (sched : List Nat) (i : Nat) (it : DownloadItem)
    (hi : items[i]? = some it)
    (hpend : fs0.existsAt it.filename = false)
    (hfail : NetFails (net i) = true)
    (hdone : ((downloadUrls mE net fs0 items sched).tasks.all
        fun t => t.phase.isDone) = true) :
    batchRaises (downloadUrls mE net fs0 items sched) = true := by
  have hfp : failPhases net i (downloadUrls mE net fs0 items sched) :=
    runSched_inv mE net (failPhases net i)
      (fun st k h => step_failPhases hfail h k)
      sched (initBatch fs0 items) (failPhases_init hi hpend)
  have hlen : (downloadUrls mE net fs0 items sched).tasks.length = items.length := by
    unfold downloadUrls
    rw [runSched_tasks_length]
    unfold initBatch
    dsimp only
    rw [List.length_map]
  have hlt : i < items.length := by
    by_contra hge
    rw [List.getElem?_eq_none (by omega)] at hi
    exact Option.noConfusion hi
  obtain ⟨t, hget⟩ : ∃ t, (downloadUrls mE net fs0 items sched).tasks[i]? = some t :=
    ⟨_, List.getElem?_eq_some.mpr ⟨by omega, rfl⟩⟩
  have hd := hfp t hget
  have hdi : t.phase.isDone = true :=
    (List.all_eq_true.mp hdone) t (List.getElem?_mem hget)
  rcases hd with h0 | h0 | ⟨⟨fd, h0⟩, hw⟩ | ⟨o, h0, hex⟩
  · rw [h0] at hdi; simp [Phase.isDone] at hdi
  · rw [h0] at hdi; simp [Phase.isDone] at hdi
  · rw [h0] at hdi; simp [Phase.isDone] at hdi
  · unfold batchRaises
    rw [List.any_eq_true]
    refine ⟨t, List.getElem?_mem hget, ?_⟩
    rw [h0]
    exact hex

/-! ### Claim C6: failures leave the destination absent (and get retried) -/

theorem existsAt_false_names_none {fs : FS} {p : PathName}
    (h : fs.existsAt p = false) : fs.names p = none := by
  unfold FS.existsAt at h
  cases hn : fs.names p with
  | none => rfl
  | some i => rw [hn] at h; simp at h

/-- One step preserves: the items map, the fail-phase invariant for task `i`,
and the absence of task `i`'s destination — provided no other item shares that
destination and no item's temporary path is that destination. -/
theorem step_destAbsent {mE : Nat → List PathName} {net : Nat → GetResult}
    {items : List DownloadItem} {i : Nat} {it : DownloadItem}
    (hi : items[i]? = some it)
    (hfail : NetFails (net i) = true)
    (hsep1 : ∀ u ∈ items, tempPath u.filename ≠ it.filename)
    (hsep2 : items.countP (fun u => decide (u.filename = it.filename)) ≤ 1)
    {st : BatchState}
    (hinv : itemsInv items st ∧ failPhases net i st ∧ st.fs.names it.filename = none)
    (k : Nat) :
    itemsInv items (stepTask mE net st k) ∧
      failPhases net i (stepTask mE net st k) ∧
      (stepTask mE net st k).fs.names it.filename = none := by
  obtain ⟨hitems, hfp, habs⟩ := hinv
  refine ⟨step_itemsInv hitems, step_failPhases hfail hfp k, ?_⟩
  by_contra hne
  obtain ⟨t, hget, hcase⟩ := step_names_created habs hne
  rcases hcase with hq | ⟨hq, ⟨fd, hph⟩, s, ct, body, hnet⟩
  · have hmem : t.item ∈ items := List.getElem?_mem (hitems k t hget)
    exact hsep1 t.item hmem hq.symm
  · by_cases hk : k = i
    · subst hk
      have hd := hfp t hget
      rcases hd with h0 | h0 | ⟨h0, ct2, hnet2⟩ | ⟨o, h0, h1⟩
      · rw [hph] at h0; exact Phase.noConfusion h0
      · rw [hph] at h0; exact Phase.noConfusion h0
      · rw [hnet] at hnet2; simp at hnet2
      · rw [hph] at h0; exact Phase.noConfusion h0
    · have h1 := hitems k t hget
      have hcount := two_le_countP (fun u => decide (u.filename = it.filename))
        items k i t.item it hk h1 hi (by simp [← hq]) (by simp)
      omega

/-- C6 (amended): a pending task whose fetch fails — transport error,
non-success status, or mid-transfer failure — ends `Failed` (an exception;
never `completed`, never `skipped`), and, provided no other task of the
batch writes to its destination (distinct destinations, and no temporary
path equal to it), the destination is absent from the filesystem after any
schedule, so a subsequent `download_urls` invocation re-attempts the task
(its pre-filter check finds nothing and marks it pending, not `Skipped`).
What the claim gets wrong is cleanup: the temporary file is *not* discarded —
a mid-transfer failure leaves an empty `.unfinished` file behind (failures
before the open create no temporary file at all). -/
theorem C6_failed_fetch_destination_absent (mE : Nat → List PathName)
    (net : Nat → GetResult) (fs0 : FS) (items : List DownloadItem)
    (sched : List Nat) (i : Nat) (it : DownloadItem)
    (hi : items[i]? = some it)
    (hpend : fs0.existsAt it.filename = false)
    (hfail : NetFails (net i) = true)
    (hsep1 : ∀ u ∈ items, tempPath u.filename ≠ it.filename)
    (hsep2 : items.countP (fun u => decide (u.filename = it.filename)) ≤ 1) :
    (downloadUrls mE net fs0 items sched).fs.names it.filename = none ∧
    (∀ t : TaskState, (downloadUrls mE net fs0 items sched).tasks[i]? = some t →
      ∀ o : Outcome, t.phase = .done o → o.isException = true) ∧
    (initTask (downloadUrls mE net fs0 items sched).fs it).phase = .start := by
  have hinv : itemsInv items (downloadUrls mE net fs0 items sched) ∧
      failPhases net i (downloadUrls mE net fs0 items sched) ∧
      (downloadUrls mE net fs0 items sched).fs.names it.filename = none :=
    runSched_inv mE net
      (fun st => itemsInv items st ∧ failPhases net i st ∧
        st.fs.names it.filename = none)
      (fun st k h => step_destAbsent hi hfail hsep1 hsep2 h k) sched
      (initBatch fs0 items)
      ⟨itemsInv_init fs0 items, failPhases_init hi hpend,
        existsAt_false_names_none hpend⟩
  refine ⟨hinv.2.2, ?_, ?_⟩
  · intro t hget o hdone
    have hd := hinv.2.1 t hget
    rcases hd with h0 | h0 | ⟨⟨fd, h0⟩, hw⟩ | ⟨o2, h0, hex⟩
    · rw [hdone] at h0; exact Phase.noConfusion h0
    · rw [hdone] at h0; exact Phase.noConfusion h0
    · rw [hdone] at h0; exact Phase.noConfusion h0
    · rw [hdone] at h0
      injection h0 with h0
      rw [h0]
      exact hex
  · simp [initTask, FS.existsAt, hinv.2.2]

/-! ### Claim C8: idempotence of a fully successful invocation -/

theorem existsAt_true_of_names {fs : FS} {p : PathName} {n : Nat}
    (h : fs.names p = some n) : fs.existsAt p = true := by
  unfold FS.existsAt
  rw [h]
  rfl

theorem step_doneNamesInv {mE : Nat → List PathName} {net : Nat → GetResult}
    {items : List DownloadItem}
    (hname : ∀ u ∈ items, u.filename ≠ [] ∧ suffixOf u.filename ≠ unfinishedSuffix)
    {st : BatchState}
    (hinv : itemsInv items st ∧ doneNamesInv items st) (k : Nat) :
    itemsInv items (stepTask mE net st k) ∧ doneNamesInv items (stepTask mE net st k) := by
  obtain ⟨hitems, hdn⟩ := hinv
  refine ⟨step_itemsInv hitems, ?_⟩
  have hkeep : ∀ (q : PathName), suffixOf q ≠ unfinishedSuffix →
      st.fs.names q ≠ none → (stepTask mE net st k).fs.names q ≠ none := by
    intro q hsfx hbefore hafter
    obtain ⟨tk, hgetk, htemp⟩ := step_names_removed hbefore hafter
    have hmemk : tk.item ∈ items := List.getElem?_mem (hitems k tk hgetk)
    have hne : tk.item.filename ≠ [] := (hname tk.item hmemk).1
    have : suffixOf q = unfinishedSuffix := by
      rw [htemp]
      exact suffixOf_tempPath hne
    exact hsfx this
  intro j t2 hget2 hdone2
  by_cases hj : j = k
  · subst hj
    rcases stepTask_cases mE net st j with heq | ⟨t, hget, hc⟩
    · rw [heq] at hget2 ⊢
      exact hdn j t2 hget2 hdone2
    · rcases hc with ⟨hph, hs, heq⟩ | ⟨hph, hsem, heq⟩ | ⟨hph, o, ho, heq⟩ |
        ⟨hph, hw, heq⟩ | ⟨fd, hph, heq⟩ |
        ⟨fd, body, s, ct, fs2, hph, hnet, hre, heq⟩ |
        ⟨fd, body, s, ct, hph, hnet, hre, heq⟩ <;>
        rw [heq] at hget2 <;> dsimp only at hget2 <;>
        rw [get_set_self hget] at hget2 <;>
        injection hget2 with hget2 <;> subst hget2 <;>
        rcases hdone2 with hd2 | hd2
      · exact absurd hd2 (by simp)
      · exact absurd hd2 (by simp)
      · exact absurd hd2 (by simp)
      · exact absurd hd2 (by simp)
      · rcases ho with rfl | rfl | rfl <;> exact absurd hd2 (by simp)
      · rcases ho with rfl | rfl | rfl <;> exact absurd hd2 (by simp)
      · exact absurd hd2 (by simp)
      · exact absurd hd2 (by simp)
      · exact absurd hd2 (by simp)
      · exact absurd hd2 (by simp)
      · exact absurd hd2 (by simp)
      · rw [heq]
        exact rename_names_dst hre
      · exact absurd hd2 (by simp)
      · exact absurd hd2 (by simp)
  · have hget2b : st.tasks[j]? = some t2 := by
      rw [← hget2, step_get_ne hj]
    have hold := hdn j t2 hget2b hdone2
    have hmem : t2.item ∈ items := List.getElem?_mem (hitems j t2 hget2b)
    exact hkeep t2.item.filename (hname t2.item hmem).2 hold

theorem doneNamesInv_init (fs0 : FS) (items : List DownloadItem) :
    doneNamesInv items (initBatch fs0 items) := by
  intro j t hget hdone
  unfold initBatch at hget
  dsimp only at hget
  rw [List.getElem?_map] at hget
  cases hj : items[j]? with
  | none => rw [hj] at hget; simp at hget
  | some it =>
    rw [hj] at hget
    dsimp only [Option.map] at hget
    injection hget with hget
    subst hget
    unfold initTask at hdone ⊢
    by_cases h : fs0.existsAt it.filename
    · rw [if_pos h]
      unfold FS.existsAt at h
      cases hn : fs0.names it.filename with
      | none => rw [hn] at h; simp at h
      | some n =>
        show fs0.names it.filename ≠ none
        simp [hn]
    · rw [if_neg h] at hdone
      dsimp only at hdone
      rcases hdone with hd | hd <;> exact absurd hd (by simp)

/-- C8: `download_urls` is idempotent over the filesystem.  If a first
invocation on a well-formed item list (nonempty filenames, none with the
`.unfinished` suffix) finishes with every task `Skipped` or completed, then a
second invocation over the resulting filesystem, with any network behavior
and any schedule, marks every task `Skipped` during its pre-filter and issues
no fetch at all. -/
theorem C8_second_invocation_all_skipped (mE1 mE2 : Nat → List PathName)
    (net1 net2 : Nat → GetResult) (fs0 : FS) (items : List DownloadItem)
    (sched1 sched2 : List Nat)
    (hname : ∀ u ∈ items, u.filename ≠ [] ∧ suffixOf u.filename ≠ unfinishedSuffix)
    (hdone : ((downloadUrls mE1 net1 fs0 items sched1).tasks.all
        fun t => decide (t.phase = .done .skipped ∨ t.phase = .done .completed)) = true) :
    ((downloadUrls mE2 net2 (downloadUrls mE1 net1 fs0 items sched1).fs items
        sched2).tasks.all fun t => decide (t.phase = .done .skipped)) = true ∧
    (downloadUrls mE2 net2 (downloadUrls mE1 net1 fs0 items sched1).fs items
        sched2).fetchLog = [] := by
  have hinv : itemsInv items (downloadUrls mE1 net1 fs0 items sched1) ∧
      doneNamesInv items (downloadUrls mE1 net1 fs0 items sched1) :=
    runSched_inv mE1 net1
      (fun st => itemsInv items st ∧ doneNamesInv items st)
      (fun st k h => step_doneNamesInv hname h k) sched1
      (initBatch fs0 items)
      ⟨itemsInv_init fs0 items, doneNamesInv_init fs0 items⟩
  have hlen : (downloadUrls mE1 net1 fs0 items sched1).tasks.length = items.length := by
    unfold downloadUrls
    rw [runSched_tasks_length]
    unfold initBatch
    dsimp only
    rw [List.length_map]
  -- after the first run, every item's destination exists
  have hexists : ∀ u ∈ items, (downloadUrls mE1 net1 fs0 items sched1).fs.existsAt
      u.filename = true := by
    intro u hu
    obtain ⟨j, hj⟩ := List.getElem?_of_mem hu
    have hlt : j < items.length := by
      by_contra hge
      rw [List.getElem?_eq_none (by omega)] at hj
      exact Option.noConfusion hj
    obtain ⟨t, hget⟩ : ∃ t, (downloadUrls mE1 net1 fs0 items sched1).tasks[j]? = some t :=
      ⟨_, List.getElem?_eq_some.mpr ⟨by omega, rfl⟩⟩
    have hphase : t.phase = .done .skipped ∨ t.phase = .done .completed := by
      have := (List.all_eq_true.mp hdone) t (List.getElem?_mem hget)
      simpa using this
    have hnn := hinv.2 j t hget hphase
    have hit : t.item = u := by
      have := hinv.1 j t hget
      rw [hj] at this
      injection this with this
      rw [this]
    rw [← hit]
    cases hn : (downloadUrls mE1 net1 fs0 items sched1).fs.names t.item.filename with
    | none => exact absurd hn hnn
    | some n => exact existsAt_true_of_names hn
  -- therefore the second init marks every task skipped
  have hinit2 : ∀ (j : Nat) (t : TaskState),
      (initBatch (downloadUrls mE1 net1 fs0 items sched1).fs items).tasks[j]? = some t →
      t.phase = .done .skipped := by
    intro j t hget
    unfold initBatch at hget
    dsimp only at hget
    rw [List.getElem?_map] at hget
    cases hj : items[j]? with
    | none => rw [hj] at hget; simp at hget
    | some u =>
      rw [hj] at hget
      dsimp only [Option.map] at hget
      injection hget with hget
      subst hget
      unfold initTask
      rw [if_pos (hexists u (List.getElem?_mem hj))]
  -- every task of the second init is done, so the scheduler is a no-op
  have hnoop : runSched mE2 net2
      (initBatch (downloadUrls mE1 net1 fs0 items sched1).fs items) sched2 =
      initBatch (downloadUrls mE1 net1 fs0 items sched1).fs items :=
    runSched_all_done
      (fun j t hget => by rw [hinit2 j t hget]; rfl) sched2
  constructor
  · show ((runSched mE2 net2 _ sched2).tasks.all _) = true
    rw [hnoop]
    rw [List.all_eq_true]
    intro x hx
    obtain ⟨j, hj⟩ := List.getElem?_of_mem hx
    rw [hinit2 j x hj]
    simp
  · show (runSched mE2 net2 _ sched2).fetchLog = []
    rw [hnoop]
    rfl

/-! ### Claim C10: the temporary-path computation -/

/-- C10: `download_one` computes the temporary path by *replacing* the
destination's final extension with `.unfinished` (`with_suffix`), not by
appending a marker: a destination `stem ++ ext` maps to
`stem ++ ".unfinished"`, so two distinct destinations differing only in their
extension share one temporary path; and the
`assert final_path.suffix != '.unfinished'` makes any task whose destination
already carries the `.unfinished` suffix fail immediately by assertion,
without touching the filesystem or fetching. -/
theorem C10_temp_path_by_replacement (stem t1 t2 : List Char)
    (hs : stem ≠ []) (h1 : t1 ≠ []) (h2 : t2 ≠ []) (hd1 : '.' ∉ t1) (hd2 : '.' ∉ t2)
    (hne : t1 ≠ t2) :
    tempPath (stem ++ '.' :: t1) = stem ++ unfinishedSuffix ∧
    tempPath (stem ++ '.' :: t2) = stem ++ unfinishedSuffix ∧
    tempPath (stem ++ '.' :: t1) = tempPath (stem ++ '.' :: t2) ∧
    stem ++ '.' :: t1 ≠ stem ++ '.' :: t2 ∧
    (∀ (mE : Nat → List PathName) (net : Nat → GetResult) (st : BatchState)
        (i : Nat) (tk : TaskState), st.tasks[i]? = some tk → tk.phase = .start →
        suffixOf tk.item.filename = unfinishedSuffix →
        stepTask mE net st i =
          { st with tasks := st.tasks.set i { tk with phase := .done .failedAssert } }) := by
  unfold tempPath
  refine ⟨withSuffix_replaces hs h1 hd1 unfinishedSuffix,
    withSuffix_replaces hs h2 hd2 unfinishedSuffix, ?_, ?_, ?_⟩
  · rw [withSuffix_replaces hs h1 hd1 unfinishedSuffix,
      withSuffix_replaces hs h2 hd2 unfinishedSuffix]
  · intro hcontra
    have := List.append_cancel_left hcontra
    injection this with _ h
    exact hne h
  · intro mE net st i tk hget hph hsuf
    exact step_assert hget hph hsuf

/-- Witness for C10 at `stem = "x"`, extensions `.jpg` and `.png`. -/
theorem C10_temp_path_by_replacement_witness :
    tempPath ("x".data ++ '.' :: "jpg".data) = "x".data ++ unfinishedSuffix ∧
    tempPath ("x".data ++ '.' :: "png".data) = "x".data ++ unfinishedSuffix ∧
    tempPath ("x".data ++ '.' :: "jpg".data) = tempPath ("x".data ++ '.' :: "png".data) ∧
    "x".data ++ '.' :: "jpg".data ≠ "x".data ++ '.' :: "png".data ∧
    (∀ (mE : Nat → List PathName) (net : Nat → GetResult) (st : BatchState)
        (i : Nat) (tk : TaskState), st.tasks[i]? = some tk → tk.phase = .start →
        suffixOf tk.item.filename = unfinishedSuffix →
        stepTask mE net st i =
          { st with tasks := st.tasks.set i { tk with phase := .done .failedAssert } }) :=
  C10_temp_path_by_replacement "x".data "jpg".data "png".data (by decide) (by decide)
    (by decide) (by decide) (by decide) (by decide)

/-! ### Claim C2: the code violates its own visibility invariant -/

/-- C2 is a bug in the code: the comment in `download_one` promises
"file exists at final path only if it was downloaded successfully and
completely", but the temporary path computed by `with_suffix` collides for
destinations sharing a stem.  In this realizable interleaving (both tasks are
admitted, both open the shared temporary file `x.unfinished` before either
read completes, then task 0 writes and renames, then task 1 writes and tries
to rename): task 1's fetch succeeds completely and passes content-type
validation, yet no file ever appears at `x.png` (its rename raises
`FileNotFoundError`), and the file at `x.jpg` holds `[9, 2, 3]` — task 1's
byte overlaid on task 0's download `[1, 2, 3]` through the still-open
descriptor — which is not the content of any complete download. -/
theorem C2_visible_iff_complete_violated :
    netCollide 1 = GetResult.response true 1 (some [9]) ∧
    suffixOf "x.png".data ∈ mEx 1 ∧
    (downloadUrls mEx netCollide fsEmpty itemsCollide [0, 1, 0, 1, 0, 1]).fs.existsAt
      "x.png".data = false ∧
    (downloadUrls mEx netCollide fsEmpty itemsCollide [0, 1, 0, 1, 0, 1]).tasks.map
      (fun t => t.phase) = [Phase.done Outcome.completed, Phase.done Outcome.failedRename] ∧
    (downloadUrls mEx netCollide fsEmpty itemsCollide [0, 1, 0, 1, 0, 1]).fs.names
      "x.jpg".data = some 0 ∧
    (downloadUrls mEx netCollide fsEmpty itemsCollide [0, 1, 0, 1, 0, 1]).fs.inodes 0 =
      some [9, 2, 3] :=
  ⟨rfl, by decide, by decide, by decide, by decide, by decide⟩

/-! ### Counterexamples for C4, C5, C6 -/

/-- Counterexample to C4 as stated: the two tasks of `itemsDup` have the same
destination `x.jpg`, the initial filesystem is empty, and under an ordinary
schedule both of them issue a fetch (`fetchLog = [0, 1]`): there is no
deduplication by destination, two fetches are attempted for one destination
in a single invocation. -/
theorem C4_counterexample_duplicate_destination :
    (itemsDup[0]?).map DownloadItem.filename = (itemsDup[1]?).map DownloadItem.filename ∧
    (downloadUrls mEx netOkA fsEmpty itemsDup [0, 1, 0, 1, 0, 1]).fetchLog = [0, 1] :=
  ⟨rfl, by decide⟩

/-- Counterexample to C5 as stated: one task whose fetch suffers a transport
error; every task reaches a terminal outcome, and `asyncio.gather` (called
with the default `return_exceptions=False`) re-raises the task's exception,
so `download_urls` fails as a unit instead of returning a per-task outcome
mapping (the code builds no such mapping at all). -/
theorem C5_counterexample_batch_raises :
    batchRaises (downloadUrls mEx netTransportFail fsEmpty itemsA [0, 0]) = true ∧
    (downloadUrls mEx netTransportFail fsEmpty itemsA [0, 0]).tasks.map
      (fun t => t.phase) = [Phase.done Outcome.failedTransport] :=
  ⟨by decide, by decide⟩

/-- Counterexample to C6 as stated: a mid-transfer failure (status ok, body
read raises) leaves the temporary file on disk — `download_one` opens
`a.unfinished` before awaiting `response.read()` and has no cleanup handler —
so "the temporary file is discarded" is false; the destination is indeed left
absent. -/
theorem C6_counterexample_temp_file_remains :
    (downloadUrls mEx netMidTransferFail fsEmpty itemsA [0, 0, 0]).tasks.map
      (fun t => t.phase) = [Phase.done Outcome.failedRead] ∧
    (downloadUrls mEx netMidTransferFail fsEmpty itemsA [0, 0, 0]).fs.existsAt
      "a.unfinished".data = true ∧
    (downloadUrls mEx netMidTransferFail fsEmpty itemsA [0, 0, 0]).fs.existsAt
      "a.jpg".data = false :=
  ⟨by decide, by decide, by decide⟩

/-! ### Witnesses for the amended downloader claims -/

/-- Witness for C5: the single-transport-error batch raises. -/
theorem C5_gather_propagates_failure_witness :
    batchRaises (downloadUrls mEx netTransportFail fsEmpty itemsA [0, 0]) = true :=
  C5_gather_propagates_failure mEx netTransportFail fsEmpty itemsA [0, 0] 0
    { filename := "a.jpg".data, url := 0 } rfl rfl rfl (by decide)

/-- Witness for C6: after the mid-transfer failure, `a.jpg` is absent, the
task's terminal outcome is an exception, and a re-run would mark it pending. -/
theorem C6_failed_fetch_destination_absent_witness :
    (downloadUrls mEx netMidTransferFail fsEmpty itemsA [0, 0, 0]).fs.names
      ("a.jpg".data) = none ∧
    (∀ t : TaskState, (downloadUrls mEx netMidTransferFail fsEmpty itemsA
        [0, 0, 0]).tasks[0]? = some t →
      ∀ o : Outcome, t.phase = .done o → o.isException = true) ∧
    (initTask (downloadUrls mEx netMidTransferFail fsEmpty itemsA [0, 0, 0]).fs
      { filename := "a.jpg".data, url := 0 }).phase = .start :=
  C6_failed_fetch_destination_absent mEx netMidTransferFail fsEmpty itemsA
    [0, 0, 0] 0 { filename := "a.jpg".data, url := 0 } rfl rfl rfl
    (by decide) (by decide)

/-- Witness for C8: a fully successful run of `itemsA`, then a second run over
the resulting filesystem: every task is `Skipped` and no fetch is issued. -/
theorem C8_second_invocation_all_skipped_witness :
    ((downloadUrls mEx netOkA (downloadUrls mEx netOkA fsEmpty itemsA [0, 0, 0]).fs
        itemsA [0]).tasks.all fun t => decide (t.phase = .done .skipped)) = true ∧
    (downloadUrls mEx netOkA (downloadUrls mEx netOkA fsEmpty itemsA [0, 0, 0]).fs
        itemsA [0]).fetchLog = [] :=
  C8_second_invocation_all_skipped mEx mEx netOkA netOkA fsEmpty itemsA [0, 0, 0] [0]
    (by decide) (by decide)

end TC
